import Mathlib

/-!
Verification development for the CodeSage.ai review relay (src/api/app.py).

The Python source is shallowly embedded: pure string manipulation becomes
Lean functions on `String` / `List Char`, the two TTL caches become explicit
state passing over association lists (Python 3.7+ dicts preserve insertion
order, which the association lists mirror), and the SSE relay generator
`cerebras_stream` becomes a function from a description of the upstream
behaviour (attempt outcomes, timed stream lines) to the list of emitted
events.  Wall-clock readings (`time.time()`) are modelled by rational
timestamps supplied explicitly, and `json.loads` is an external library,
modelled as a parameter returning `Option J`.  Timestamps are integers:
the source reads a real-valued clock, but only ever compares clock
differences against constant thresholds, so any linearly ordered abelian
group of times carries the claims; `Int` keeps every definition kernel
computable.  The one real-valued quantity with a fractional value, the
backoff sleep `(2 ** attempt) * 1.2`, is modelled exactly in `Rat`.
-/

namespace CodeSage

/-! ## Python string primitives used by app.py -/

/-- Whitespace set stripped by Python `str.strip()` (ASCII subset; the
source only ever strips SSE framing whitespace, which is ASCII). -/
def isPySpace (c : Char) : Bool :=
  c = ' ' || c = '\t' || c = '\n' || c = '\r' || c = '\x0b' || c = '\x0c'

/-- Python `str.strip()`. -/
def pyStrip (s : String) : String :=
  ⟨((s.data.dropWhile isPySpace).reverse.dropWhile isPySpace).reverse⟩

/-- Python slice `s[:160]`, used for the non-200 body excerpt
(`resp.text[:160]`, app.py:733). -/
def take160 (s : String) : String := ⟨s.data.take 160⟩

/-- Line-boundary characters recognised by Python `str.splitlines()`. -/
def isLineBreak (c : Char) : Bool :=
  c = '\n' || c = '\r' || c = '\x0b' || c = '\x0c' ||
  c = '\x1c' || c = '\x1d' || c = '\x1e' || c = '\x85' ||
  c = '\u2028' || c = '\u2029'

/-- Python `str.splitlines()` on the character list: splits at every line
boundary, treats `"\r\n"` as a single boundary, and produces no final empty
line for a trailing boundary (`"a\n".splitlines() == ["a"]`). -/
def splitLinesCh : List Char → List (List Char)
  | [] => []
  | c :: cs =>
    if isLineBreak c then
      match cs with
      | c2 :: cs2 =>
        if c = '\r' && c2 = '\n' then [] :: splitLinesCh cs2
        else [] :: splitLinesCh (c2 :: cs2)
      | [] => [[]]
    else
      match splitLinesCh cs with
      | [] => [[c]]
      | l :: ls => (c :: l) :: ls

/-- Python `"\n".join(lines)`. -/
def joinNL : List (List Char) → List Char
  | [] => []
  | [l] => l
  | l :: ls => l ++ '\n' :: joinNL ls

/-- Removes a single trailing empty line.  This is exactly the information
`"\n".join` loses: `splitlines (join ls) = dropLastEmpty ls` for
boundary-free lines. -/
def dropLastEmpty : List (List Char) → List (List Char)
  | [] => []
  | [l] => if l = [] then [] else [l]
  | l :: l2 :: ls => l :: dropLastEmpty (l2 :: ls)

/-- Does the list `l` start with the pattern `pat`?  (Python `startswith`.) -/
def startsL : List Char → List Char → Bool
  | [], _ => true
  | _ :: _, [] => false
  | p :: ps, c :: cs => p = c && startsL ps cs

/-- Python substring test `pat in l`. -/
def containsL : List Char → List Char → Bool
  | pat, [] => pat.isEmpty
  | pat, c :: cs => startsL pat (c :: cs) || containsL pat cs

/-- Python `str.strip()` on a character list. -/
def pyStripL (l : List Char) : List Char :=
  ((l.dropWhile isPySpace).reverse.dropWhile isPySpace).reverse

/-- Python `s.startswith(pre)` on strings. -/
def strStarts (pre s : String) : Bool := startsL pre.data s.data

/-- Python `s.endswith(suf)` on strings. -/
def strEnds (suf s : String) : Bool := startsL suf.data.reverse s.data.reverse

/-- Python slice `s[n:]`. -/
def strDrop (n : Nat) (s : String) : String := ⟨s.data.drop n⟩

/-! ## sanitize_code (app.py:113-137) -/

/-- The `blocked_patterns` list of `sanitize_code` (app.py:115-122). -/
def blocked_patterns : List (List Char) :=
  ["ignore previous".data, "you are now".data, "system:".data, "assistant:".data,
   "forget previous".data, "# system:".data, "// system:".data, "human:".data,
   "ai:".data, "user:".data, "bot:".data, "override".data, "bypass".data,
   "admin".data, "root".data, "sudo".data, "new instructions".data,
   "disregard".data, "ignore all".data, "role-play".data, "act as".data,
   "pretend to be".data, "developer mode".data, "debug mode".data,
   "unsafe mode".data]

/-- The per-line filter of `sanitize_code` (app.py:125-136): a line is kept
unless its lowercased, stripped form starts with a blocked pattern, contains
a blocked pattern, or starts with a comment marker.  Lowercasing is modelled
on ASCII (`Char.toLower`); the blocked patterns themselves are ASCII. -/
def keepLine (line : List Char) : Bool :=
  let l := pyStripL (line.map Char.toLower)
  !(blocked_patterns.any fun p => startsL p l) &&
  !(blocked_patterns.any fun p => containsL p l) &&
  !(startsL "//".data l || startsL "#".data l || startsL "/*".data l ||
    startsL "*".data l)

/-- `sanitize_code` (app.py:113-137): keep the surviving lines of
`raw.splitlines()` and re-join them with `"\n"`. -/
def sanitize_code (raw : String) : String :=
  ⟨joinNL ((splitLinesCh raw.data).filter keepLine)⟩

/-! ## The two TTL caches (app.py:284-359)

`GitHubCache` (app.py:284-316) and `ResponseCache` (app.py:321-356) have
textually identical `_is_expired` / `_evict_expired` / `get` / `set`
methods and differ only in their construction parameters, so a single
embedding covers both.  The two Python dicts `_cache` and `_access_times`
become two association lists holding the keys in dict iteration order
(insertion order; overwriting an existing key keeps its position, exactly
as a Python dict does). -/

/-- First-match lookup in an association list (Python `d[k]` / `k in d`). -/
def lookupA {α : Type} (l : List (String × α)) (k : String) : Option α :=
  (l.find? fun p => p.1 == k).map (·.2)

/-- Python `d[k] = v`: overwrite in place if the key is present (keeping its
position, as dicts do), otherwise append. -/
def updA {α : Type} (l : List (String × α)) (k : String) (v : α) :
    List (String × α) :=
  if l.any (fun p => p.1 == k) then
    l.map fun p => if p.1 == k then (k, v) else p
  else l ++ [(k, v)]

/-- Python `del d[k]`. -/
def delA {α : Type} (l : List (String × α)) (k : String) : List (String × α) :=
  l.filter fun p => !(p.1 == k)

/-- Python `min(d.keys(), key=d.get)`: the entry with the smallest time,
ties resolved to the earliest entry in iteration order (as `min` keeps the
first minimal element).  `none` only for an empty dict, where Python
raises `ValueError`. -/
def minKey (l : List (String × Int)) : Option (String × Int) :=
  match l with
  | [] => none
  | p :: rest => some (rest.foldl (fun acc q => if q.2 < acc.2 then q else acc) p)

/-- State of one cache instance: `max_size`, `ttl_seconds`, `_cache` and
`_access_times` (app.py:285-289). -/
structure CacheState where
  maxSize : Nat
  ttl : Int
  cache : List (String × String)
  access : List (String × Int)
deriving DecidableEq, Repr

/-- `_is_expired` (app.py:291-292): `time.time() - self._access_times[key]
> self.ttl_seconds`, with the access time passed in. -/
def isExpiredAt (ttl now t : Int) : Bool := ttl < now - t

/-- `_evict_expired` (app.py:294-298): delete every expired key from both
dicts.  An entry of `_cache` is judged by the access time stored under its
key (which always exists in real states; an entry without one is kept,
matching the source, which only iterates `_access_times`). -/
def evictExpired (now : Int) (st : CacheState) : CacheState :=
  { st with
    cache := st.cache.filter fun p =>
      match lookupA st.access p.1 with
      | some t => !(isExpiredAt st.ttl now t)
      | none => true
    access := st.access.filter fun p => !(isExpiredAt st.ttl now p.2) }

/-- `get` (app.py:300-305): purge expired entries, then on a hit refresh
the access time and return the value, else return `None`. -/
def cacheGet (st : CacheState) (now : Int) (k : String) :
    Option String × CacheState :=
  let st1 := evictExpired now st
  match lookupA st1.cache k with
  | some v => (some v, { st1 with access := updA st1.access k now })
  | none => (none, st1)

/-- `set` (app.py:307-316): purge expired entries; if still at capacity,
evict the key with the oldest access time; then write the entry.  The
`minKey ... = none` branch is where the source raises `ValueError`
(`min` of an empty sequence), reachable only for `max_size = 0`. -/
def cacheSet (st : CacheState) (now : Int) (k v : String) : CacheState :=
  let st1 := evictExpired now st
  let st2 :=
    if st1.maxSize ≤ st1.cache.length then
      match minKey st1.access with
      | some old =>
        { st1 with cache := delA st1.cache old.1, access := delA st1.access old.1 }
      | none => st1
    else st1
  { st2 with cache := updA st2.cache k v, access := updA st2.access k now }

/-- A freshly constructed cache (the `__init__` of either class). -/
def emptyCache (m : Nat) (ttl : Int) : CacheState := ⟨m, ttl, [], []⟩

/-- `github_cache = GitHubCache(max_size=100, ttl_seconds=3600)` (app.py:319). -/
def github_cache : CacheState := emptyCache 100 3600

/-- `response_cache = ResponseCache(max_size=200, ttl_seconds=7200)` (app.py:359). -/
def response_cache : CacheState := emptyCache 200 7200

/-- `ResponseCache.generate_key` (app.py:355-356). -/
def generate_key (prompt_hash mode : String) (file_count : Nat) : String :=
  prompt_hash ++ "_" ++ mode ++ "_" ++ toString file_count

/-- One observable cache operation, with its simulated `time.time()`. -/
inductive COp where
  | cset (k v : String) (t : Int)
  | cget (k : String) (t : Int)
deriving DecidableEq, Repr

/-- The key an operation touches. -/
def COp.key : COp → String
  | .cset k _ _ => k
  | .cget k _ => k

/-- Run one operation for its state effect. -/
def applyOp (st : CacheState) : COp → CacheState
  | .cset k v t => cacheSet st t k v
  | .cget k t => (cacheGet st t k).2

/-- Run a sequence of operations. -/
def applySeq (st : CacheState) (ops : List COp) : CacheState :=
  ops.foldl applyOp st

/-- Well-formedness every reachable cache state enjoys: `_cache` and
`_access_times` hold the same keys in the same order, without duplicates. -/
def WF (st : CacheState) : Prop :=
  st.cache.map Prod.fst = st.access.map Prod.fst ∧
  (st.access.map Prod.fst).Nodup

/-- One insertion of the C5 scenario: a key, a value and the simulated
clock at which `set` runs. -/
structure Ins where
  key : String
  val : String
  t : Int
deriving DecidableEq, Repr

/-- Run a list of `set` calls. -/
def applyInserts (st : CacheState) (L : List Ins) : CacheState :=
  L.foldl (fun s i => cacheSet s i.t i.key i.val) st

/-! ## fetch_code and the review relay decision (app.py:493-534, 802-907) -/

/-- `MAX_FILE_BYTES` default (app.py:38). -/
def MAX_FILE_BYTES : Nat := 120000

/-- Outcome of one `fetch_code` call: the returned content (`none` when the
source raises `ValueError`), whether the GitHub network fetch ran, and the
resulting state of the fetched-content cache. -/
structure FetchOut where
  result : Option String
  networkUsed : Bool
  state : CacheState
deriving DecidableEq, Repr

/-- The network branch of `fetch_code` (app.py:505-529): fetch the raw
file (`net` is the body delivered by `requests.get`, `none` for a network
error), enforce `MAX_FILE_BYTES`, store the decoded content in the cache
and return it.  URL parsing, the content-length pre-check and
`errors="replace"` decoding are glue outside the cache contract and are
not modelled; `key` is the already-built cache key and `net` the decoded
body. -/
def fetchNet (st : CacheState) (now : Int) (k : String) (net : Option String) :
    FetchOut :=
  match net with
  | none => ⟨none, true, st⟩
  | some data =>
    if MAX_FILE_BYTES < data.length then ⟨none, true, st⟩
    else ⟨some data, true, cacheSet st now k data⟩

/-- `fetch_code` (app.py:493-534), from the point where the cache key is
built: consult `github_cache` first and return a truthy cached value
without touching the network (`if cached_result:`, app.py:501 — note the
truthiness test, so a cached empty string falls through), otherwise fetch
over the network. -/
def fetch_code (st : CacheState) (now : Int) (k : String) (net : Option String) :
    FetchOut :=
  let g := cacheGet st now k
  match g.1 with
  | some c => if c ≠ "" then ⟨some c, false, g.2⟩ else fetchNet g.2 now k net
  | none => fetchNet g.2 now k net

/-- What the `review` endpoint decides about the response-dedup cache and
the upstream call. -/
structure ReviewRelay where
  cacheKey : String
  consultedResponseCache : Bool
  opensUpstream : Bool
deriving DecidableEq, Repr

/-- The response-cache slice of `review` (app.py:874-892): the key
`generate_key(prompt_hash, mode, file_count)` is computed and logged, but —
"For demo purposes, we'll skip caching for now" (app.py:878) —
`response_cache.get` is never called and the streaming `Response` around
`cerebras_stream` is constructed unconditionally.  The current response
cache state and clock are passed in to record that the decision ignores
them, exactly as the source does. -/
def review_relay (_respCache : CacheState) (_now : Int) (prompt_hash mode : String)
    (file_count : Nat) : ReviewRelay :=
  ⟨generate_key prompt_hash mode file_count, false, true⟩

/-! ## The streaming relay `cerebras_stream` (app.py:698-800)

The generator is embedded as a function from the upstream behaviour to the
list of events it yields.  Each yielded `chunk(...)` (app.py:699-709) is
one `Ev`; the literal `"data: [DONE]\n"` sentinel yielded after the end
chunk (app.py:800) is not a chunk and is tracked by a separate flag.
Consumer cancellation (`GeneratorExit`, app.py:790-792) is outside the
model: every claim about the relay explicitly excludes it. -/

/-- One client-facing event, i.e. one `chunk(content, event, done)` call:
`start`, `token`, `heartbeat`, `error` (with `done` as its terminal flag)
or the final `end` chunk. -/
inductive Ev where
  | start
  | token (s : String)
  | heartbeat
  | error (msg : String) (terminal : Bool)
  | endE
deriving DecidableEq, Repr

/-- JSON values, for the payloads `json.loads` may return. -/
inductive J where
  | null
  | jbool (b : Bool)
  | jnum (n : Int)
  | jstr (s : String)
  | jarr (xs : List J)
  | jobj (fields : List (String × J))

/-- Python truthiness of a JSON value (`if obj["choices"]:`). -/
def jTruthy : J → Bool
  | .null => false
  | .jbool b => b
  | .jnum n => !(n == 0)
  | .jstr s => !(s == "")
  | .jarr xs => !xs.isEmpty
  | .jobj fs => !fs.isEmpty

/-- Python `k in obj` for a JSON object (only objects are queried by the
source's extraction code). -/
def jMember (k : String) : J → Bool
  | .jobj fs => fs.any fun p => p.1 == k
  | _ => false

/-- Python `obj[k]` / `obj.get(k, default)` with `null` for a miss. -/
def jGet (j : J) (k : String) : J :=
  match j with
  | .jobj fs => ((fs.find? fun p => p.1 == k).map (·.2)).getD .null
  | _ => .null

/-- Iterating a JSON value as a list (`for choice in obj.get("choices", [])`;
the source only ever receives arrays here). -/
def jItems : J → List J
  | .jarr xs => xs
  | _ => []

/-- A JSON value read as a string (`content += delta["content"]`; upstream
delta contents are strings). -/
def jStrVal : J → String
  | .jstr s => s
  | _ => ""

/-- The delta-content extraction of app.py:775-784: if the object has a
truthy `choices` field, concatenate `choice["delta"]["content"]` over all
choices that are truthy and have a `delta` with a `content` key. -/
def deltaContent (obj : J) : String :=
  if jMember "choices" obj && jTruthy (jGet obj "choices") then
    (jItems (jGet obj "choices")).foldl
      (fun acc choice =>
        if jTruthy choice && jMember "delta" choice then
          let delta := jGet choice "delta"
          if jMember "content" delta then acc ++ jStrVal (jGet delta "content")
          else acc
        else acc) ""
  else ""

/-- Line normalisation of app.py:765-767: strip the raw line, then drop a
leading `data:` framing prefix and strip again. -/
def normLine (raw : String) : String :=
  let line := pyStrip raw
  if strStarts "data:" line then pyStrip (strDrop 5 line) else line

/-- Processing of one upstream line, after the heartbeat check
(app.py:762-788): the events emitted for this line and whether the loop
breaks (the `[DONE]` sentinel, app.py:768-769).  A blank line is skipped
(`if not raw: continue`); a JSON-looking line is parsed with `jl`
(`json.loads`), a parse failure is skipped (`continue`, app.py:786-788);
a non-empty extracted delta is emitted as a token chunk.  Everything else
emits nothing. -/
def lineStep (jl : String → Option J) (raw : String) : List Ev × Bool :=
  if raw = "" then ([], false)
  else
    let line := normLine raw
    if line = "[DONE]" then ([], true)
    else if strStarts "\x7b" line && strEnds "\x7d" line then
      match jl line with
      | none => ([], false)
      | some obj =>
        let content := deltaContent obj
        if content = "" then ([], false) else ([Ev.token content], false)
    else ([], false)

/-- `HEARTBEAT_INTERVAL = 8` (app.py:698). -/
def HEARTBEAT_INTERVAL : Int := 8

/-- The heartbeat check run before each line is processed (app.py:755-760):
if `now - last_heartbeat >= HEARTBEAT_INTERVAL`, yield a heartbeat chunk
and reset the timer. -/
def hbStep (hb now : Int) : List Ev × Int :=
  if HEARTBEAT_INTERVAL ≤ now - hb then ([Ev.heartbeat], now) else ([], hb)

/-- The `for raw in resp.iter_lines(...)` loop (app.py:754-788) over timed
lines, carrying the `last_heartbeat` timer: the concatenated events, and
whether the loop ended by the `[DONE]` break.  The source also assigns a
`last_emit` variable (app.py:749, 785) that is never read, so it has no
observable effect and is not carried here. -/
def runLines (jl : String → Option J) : Int → List (Int × String) → List Ev × Bool
  | _, [] => ([], false)
  | hb, (t, raw) :: rest =>
    let h := hbStep hb t
    let l := lineStep jl raw
    if l.2 then (h.1 ++ l.1, true)
    else
      let r := runLines jl h.2 rest
      (h.1 ++ l.1 ++ r.1, r.2)

/-- The behaviour of one established upstream stream: the clock when the
connection was opened (which initialises `last_heartbeat`, app.py:749-750),
the lines `iter_lines` yields with their arrival clocks, and an exception
`iter_lines` raises after those lines (`none` for a clean close). -/
structure StreamSpec where
  t0 : Int
  lines : List (Int × String)
  exn : Option String

/-- The outcome of one `requests.post` attempt (app.py:731): a raised
network-level exception, or a response with its HTTP status, its body text
(read for the non-200 excerpt) and, for a streaming response, its line
behaviour. -/
inductive AttemptOutcome where
  | raised (msg : String)
  | response (status : Nat) (body : String) (stream : StreamSpec)

/-- Everything a `cerebras_stream` session is observed to do: the chunk
events in order, the backoff sleeps in order, whether the final
`data: [DONE]` sentinel line was yielded, and how many upstream `post`
attempts were issued. -/
structure RelayOut where
  events : List Ev
  sleeps : List Rat
  sentinel : Bool
  attemptsMade : Nat

/-- `max_retries = 3` (app.py:727). -/
def max_retries : Nat := 3

/-- The literal `1.2` of the backoff computation (app.py:745), exact in `Rat`. -/
def backoffBase : Rat := 6 / 5

/-- `wait_time = (2 ** attempt) * 1.2` (app.py:745), with `attempt`
zero-based as in the source. -/
def backoffWait (attempt : Nat) : Rat := (2 ^ attempt) * backoffBase

/-- The non-200 terminal message `f"[API error] {resp.status_code}:
{resp.text[:160]}"` (app.py:733). -/
def apiErrMsg (status : Nat) (body : String) : String :=
  "[API error] " ++ toString status ++ ": " ++ take160 body

/-- The retry-exhaustion terminal message `f"[Connection error] {str(e)}"`
(app.py:741). -/
def connErrMsg (m : String) : String := "[Connection error] " ++ m

/-- The mid-stream error message `f"[Stream error] {str(e)}"` (app.py:794). -/
def streamErrMsg (m : String) : String := "[Stream error] " ++ m

/-- Events of an established session from `yield chunk(event="start")`
(app.py:751) up to the end chunk from the `finally` block (app.py:797-799):
the line loop, then — unless the loop broke on `[DONE]` — the conversion
of an `iter_lines` exception into a non-terminal error chunk
(app.py:793-796), then always exactly one end chunk. -/
def streamEvents (jl : String → Option J) (st : StreamSpec) : List Ev :=
  let r := runLines jl st.t0 st.lines
  Ev.start ::
    (r.1 ++
      (if r.2 then []
       else
         match st.exn with
         | some m => [Ev.error (streamErrMsg m) false]
         | none => [])) ++
    [Ev.endE]

/-- The retry loop `for attempt in range(max_retries)` (app.py:728-747),
consuming one `AttemptOutcome` per iteration.  A non-200 response yields a
terminal error chunk and returns (no retry, app.py:732-736); a raised
exception on the last attempt yields a terminal error chunk and returns
(app.py:740-744), otherwise sleeps `backoffWait attempt` and retries; a 200
response breaks out into the streaming phase.  The early returns happen
before the `try/finally` of the streaming phase, so they yield neither an
end chunk nor the sentinel.  (The `[]` case is unreachable: the source
always obtains an outcome for every attempt.) -/
def runAttempts (jl : String → Option J) :
    List AttemptOutcome → Nat → RelayOut
  | [], _ => ⟨[], [], false, 0⟩
  | .raised m :: rest, i =>
    if i = max_retries - 1 then ⟨[Ev.error (connErrMsg m) true], [], false, 1⟩
    else
      let r := runAttempts jl rest (i + 1)
      ⟨r.events, backoffWait i :: r.sleeps, r.sentinel, r.attemptsMade + 1⟩
  | .response status body st :: _, _ =>
    if status ≠ 200 then ⟨[Ev.error (apiErrMsg status body) true], [], false, 1⟩
    else ⟨streamEvents jl st, [], true, 1⟩

/-- `cerebras_stream` (app.py:711-800) for a session that is not cancelled
by the consumer, as a function of the upstream behaviour. -/
def cerebras_stream (jl : String → Option J) (attempts : List AttemptOutcome) :
    RelayOut :=
  runAttempts jl attempts 0

/-! ## Helper lemmas: splitlines / join -/

/-- Unfolding of `splitLinesCh` at a non-boundary head. -/
theorem splitLinesCh_cons_no_break (c : Char) (cs : List Char)
    (hc : isLineBreak c = false) :
    splitLinesCh (c :: cs) =
      match splitLinesCh cs with
      | [] => [[c]]
      | l :: ls => (c :: l) :: ls := by
  cases cs with
  | nil => simp [splitLinesCh, hc]
  | cons c2 cs2 => rw [splitLinesCh.eq_2]; simp [hc]

/-- Every line produced by `splitLinesCh` is free of line-boundary characters. -/
theorem splitLinesCh_no_break (s : List Char) :
    ∀ l ∈ splitLinesCh s, ∀ c ∈ l, isLineBreak c = false := by
  induction s using splitLinesCh.induct with
  | case1 => simp [splitLinesCh]
  | case2 c hbr c2 cs2 hrn ih =>
    intro l hl ch hch
    rw [splitLinesCh.eq_2, if_pos hbr, if_pos hrn] at hl
    rcases List.mem_cons.mp hl with h | h
    · subst h; cases hch
    · exact ih l h ch hch
  | case3 c hbr c2 cs2 hrn ih =>
    intro l hl ch hch
    rw [splitLinesCh.eq_2, if_pos hbr, if_neg hrn] at hl
    rcases List.mem_cons.mp hl with h | h
    · subst h; cases hch
    · exact ih l h ch hch
  | case4 c hbr =>
    intro l hl ch hch
    simp only [splitLinesCh, hbr, if_true] at hl
    rcases List.mem_cons.mp hl with h | h
    · subst h; cases hch
    · cases h
  | case5 c cs hbr hnil ih =>
    intro l hl ch hch
    rw [splitLinesCh_cons_no_break c cs (by simpa using hbr), hnil] at hl
    rcases List.mem_cons.mp hl with h | h
    · subst h
      rcases List.mem_singleton.mp hch with rfl
      simpa using hbr
    · cases h
  | case6 c cs hbr l0 ls0 hcons ih =>
    intro l hl ch hch
    rw [splitLinesCh_cons_no_break c cs (by simpa using hbr), hcons] at hl
    rcases List.mem_cons.mp hl with h | h
    · subst h
      rcases List.mem_cons.mp hch with rfl | h2
      · simpa using hbr
      · exact ih l0 (by rw [hcons]; exact List.mem_cons_self _ _) ch h2
    · exact ih l (by rw [hcons]; exact List.mem_cons_of_mem _ h) ch hch

/-- A boundary-free list splits as a single line (or none when empty). -/
theorem splitLinesCh_of_no_break (l : List Char)
    (h : ∀ c ∈ l, isLineBreak c = false) :
    splitLinesCh l = if l = [] then [] else [l] := by
  induction l with
  | nil => simp [splitLinesCh]
  | cons c cs ih =>
    have hc : isLineBreak c = false := h c (List.mem_cons_self _ _)
    have ih2 := ih fun x hx => h x (List.mem_cons_of_mem _ hx)
    rw [splitLinesCh_cons_no_break c cs hc, ih2]
    cases cs with
    | nil => simp
    | cons c2 cs2 => simp

/-- Splitting a boundary-free line followed by a newline and a remainder. -/
theorem splitLinesCh_append_newline (l rest : List Char)
    (h : ∀ c ∈ l, isLineBreak c = false) :
    splitLinesCh (l ++ '\n' :: rest) = l :: splitLinesCh rest := by
  induction l with
  | nil =>
    cases rest with
    | nil => simp [splitLinesCh, isLineBreak]
    | cons r rs =>
      rw [List.nil_append, splitLinesCh.eq_2]
      norm_num [isLineBreak]
      intro h1
      exact absurd h1 (by decide)
  | cons c cs ih =>
    have hc : isLineBreak c = false := h c (List.mem_cons_self _ _)
    have ih2 := ih fun x hx => h x (List.mem_cons_of_mem _ hx)
    rw [List.cons_append, splitLinesCh_cons_no_break _ _ hc, ih2]

/-- Round trip: splitting a `"\n"`-join of boundary-free lines recovers the
lines, up to one lost trailing empty line. -/
theorem splitLinesCh_joinNL (ls : List (List Char))
    (h : ∀ l ∈ ls, ∀ c ∈ l, isLineBreak c = false) :
    splitLinesCh (joinNL ls) = dropLastEmpty ls := by
  induction ls with
  | nil => simp [joinNL, dropLastEmpty, splitLinesCh]
  | cons l ls ih =>
    cases ls with
    | nil =>
      rw [show joinNL [l] = l from rfl,
        splitLinesCh_of_no_break l (h l (List.mem_cons_self _ _))]
      rfl
    | cons l2 ls2 =>
      rw [show joinNL (l :: l2 :: ls2) = l ++ '\n' :: joinNL (l2 :: ls2) from rfl,
        splitLinesCh_append_newline l _ (h l (List.mem_cons_self _ _)),
        ih fun x hx => h x (List.mem_cons_of_mem _ hx)]
      rfl

/-- `dropLastEmpty` only deletes elements. -/
theorem dropLastEmpty_sublist (ls : List (List Char)) :
    (dropLastEmpty ls).Sublist ls := by
  induction ls with
  | nil => simp [dropLastEmpty]
  | cons l ls ih =>
    cases ls with
    | nil =>
      by_cases hl : l = []
      · simp [dropLastEmpty, hl]
      · simp [dropLastEmpty, hl]
    | cons l2 ls2 => exact (List.Sublist.cons₂ l ih)

/-- `dropLastEmpty` is the identity when the last line is not empty. -/
theorem dropLastEmpty_eq_self (ls : List (List Char))
    (h : ls.getLast? ≠ some []) : dropLastEmpty ls = ls := by
  induction ls with
  | nil => rfl
  | cons l ls ih =>
    cases ls with
    | nil =>
      have : l ≠ [] := by
        intro hl
        exact h (by simp [hl, List.getLast?])
      simp [dropLastEmpty, this]
    | cons l2 ls2 =>
      have := ih (by simpa [List.getLast?_cons_cons] using h)
      simp [dropLastEmpty, this]

/-! ## Claim C10 -/

/-- C10, counterexample: `sanitize_code` is not idempotent.  On the input
`"x\n\n"` the first pass keeps the lines `["x", ""]` and joins them to
`"x\n"`; the second pass splits `"x\n"` into just `["x"]` (Python
`splitlines` produces no final empty line for a trailing newline) and
returns `"x"`, so applying the function twice differs from applying it
once. -/
theorem C10_counterexample :
    sanitize_code "x\n\n" = "x\n" ∧
    sanitize_code (sanitize_code "x\n\n") = "x" ∧
    sanitize_code (sanitize_code "x\n\n") ≠ sanitize_code "x\n\n" :=
  ⟨by decide, by decide, by decide⟩

/-- C10, amended: the lines of `sanitize_code raw` are a subsequence of the
lines of `raw` (sanitisation only deletes whole lines, never rewrites or
reorders text); and `sanitize_code` is idempotent on every input whose kept
line list does not end with an empty line — the only failure mode, as a
trailing kept empty line is lost by a second pass. -/
theorem C10_amended :
    (∀ s : String,
      (splitLinesCh (sanitize_code s).data).Sublist (splitLinesCh s.data)) ∧
    (∀ s : String,
      ((splitLinesCh s.data).filter keepLine).getLast? ≠ some [] →
      sanitize_code (sanitize_code s) = sanitize_code s) := by
  have key : ∀ s : String,
      splitLinesCh (sanitize_code s).data =
        dropLastEmpty ((splitLinesCh s.data).filter keepLine) := by
    intro s
    have hK : ∀ l ∈ (splitLinesCh s.data).filter keepLine,
        ∀ c ∈ l, isLineBreak c = false :=
      fun l hl => splitLinesCh_no_break s.data l (List.mem_of_mem_filter hl)
    exact splitLinesCh_joinNL _ hK
  constructor
  · intro s
    rw [key s]
    exact (dropLastEmpty_sublist _).trans (List.filter_sublist _)
  · intro s h
    have h2 : splitLinesCh (sanitize_code s).data =
        (splitLinesCh s.data).filter keepLine := by
      rw [key s, dropLastEmpty_eq_self _ h]
    show (⟨joinNL ((splitLinesCh (sanitize_code s).data).filter keepLine)⟩ : String)
        = sanitize_code s
    rw [h2, List.filter_eq_self.mpr fun a ha => (List.mem_filter.mp ha).2]
    rfl

/-- C10, witness: the amended idempotence at the concrete input `"ab"`. -/
theorem C10_witness :
    (((splitLinesCh "ab".data).filter keepLine).getLast? ≠ some []) ∧
    sanitize_code (sanitize_code "ab") = sanitize_code "ab" :=
  ⟨by decide, C10_amended.2 "ab" (by decide)⟩

/-! ## Helper lemmas: the relay event stream -/

/-- The heartbeat check yields either nothing or a single heartbeat. -/
theorem hbStep_events (hb t : Int) :
    (hbStep hb t).1 = [] ∨ (hbStep hb t).1 = [Ev.heartbeat] := by
  unfold hbStep
  split <;> simp

/-- One line yields either nothing or a single token chunk. -/
theorem lineStep_events (jl : String → Option J) (raw : String) :
    (lineStep jl raw).1 = [] ∨ ∃ c, (lineStep jl raw).1 = [Ev.token c] := by
  by_cases h0 : raw = ""
  · simp [lineStep, h0]
  by_cases h1 : normLine raw = "[DONE]"
  · simp [lineStep, h0, h1]
  by_cases h2 : (strStarts "\x7b" (normLine raw) && strEnds "\x7d" (normLine raw)) = true
  · rcases hjl : jl (normLine raw) with _ | obj
    · simp [lineStep, h0, h1, h2, hjl]
    · by_cases h3 : deltaContent obj = ""
      · simp [lineStep, h0, h1, h2, hjl, h3]
      · right
        exact ⟨deltaContent obj, by simp [lineStep, h0, h1, h2, hjl, h3]⟩
  · simp [lineStep, h0, h1, h2]

/-- Every event of the line loop is a heartbeat or a token chunk. -/
theorem runLines_events (jl : String → Option J) (items : List (Int × String)) :
    ∀ (hb : Int), ∀ e ∈ (runLines jl hb items).1,
      e = Ev.heartbeat ∨ ∃ c, e = Ev.token c := by
  induction items with
  | nil => intro hb e he; simp [runLines] at he
  | cons it rest ih =>
    obtain ⟨t, raw⟩ := it
    intro hb e he
    have hmem : e ∈ (hbStep hb t).1 ∨ e ∈ (lineStep jl raw).1 ∨
        e ∈ (runLines jl (hbStep hb t).2 rest).1 := by
      simp only [runLines] at he
      split at he <;> simp at he <;> tauto
    rcases hmem with h | h | h
    · rcases hbStep_events hb t with hh | hh <;> rw [hh] at h
      · cases h
      · left; simpa using h
    · rcases lineStep_events jl raw with hl | ⟨c, hl⟩ <;> rw [hl] at h
      · cases h
      · right; exact ⟨c, by simpa using h⟩
    · exact ih _ e h

/-- The line loop never yields an end chunk. -/
theorem runLines_no_end (jl : String → Option J) (hb : Int)
    (items : List (Int × String)) : Ev.endE ∉ (runLines jl hb items).1 := by
  intro h
  rcases runLines_events jl items hb Ev.endE h with h2 | ⟨c, h2⟩ <;> cases h2

/-- The line loop never yields an error chunk. -/
theorem runLines_no_error (jl : String → Option J) (hb : Int)
    (items : List (Int × String)) (m : String) (b : Bool) :
    Ev.error m b ∉ (runLines jl hb items).1 := by
  intro h
  rcases runLines_events jl items hb (Ev.error m b) h with h2 | ⟨c, h2⟩ <;> cases h2

/-- An established session's events are exactly one start chunk, a body of
heartbeat / token chunks plus at most one non-terminal error chunk, and a
final end chunk. -/
theorem streamEvents_end_count (jl : String → Option J) (st : StreamSpec) :
    (streamEvents jl st).count Ev.endE = 1 ∧
    (streamEvents jl st).getLast? = some Ev.endE := by
  rcases hr : runLines jl st.t0 st.lines with ⟨evs, brk⟩
  have hno : Ev.endE ∉ evs := by
    have h := runLines_no_end jl st.t0 st.lines
    rw [hr] at h
    exact h
  have hshape : ∀ (a : Ev) (l : List Ev),
      (a :: (l ++ [Ev.endE])).getLast? = some Ev.endE := by
    intro a l
    have h : a :: (l ++ [Ev.endE]) = (a :: l) ++ [Ev.endE] := by simp
    rw [h, List.getLast?_concat]
  constructor
  · cases brk <;> rcases hexn : st.exn with _ | m <;>
      simp [streamEvents, hr, hexn, List.count_cons, List.count_append,
        List.count_eq_zero.mpr hno]
  · cases brk <;> rcases hexn : st.exn with _ | m <;>
      · simp only [streamEvents, hr, hexn, ← List.append_assoc, List.append_nil]
        exact hshape _ _

/-- The truncated excerpt is at most 160 characters long. -/
theorem take160_le (s : String) : (take160 s).length ≤ 160 := by
  show (s.data.take 160).length ≤ 160
  simp [List.length_take]

/-! ## Claim C1 -/

/-- C1, counterexample: a session rejected with HTTP 500 on the first
attempt (not a consumer cancellation) emits only the terminal error chunk
and returns before the `try/finally` of the streaming phase, so its event
sequence contains no `End` event at all — the claim requires exactly one. -/
theorem C1_counterexample :
    (cerebras_stream (fun _ => none)
        [AttemptOutcome.response 500 "boom" ⟨0, [], none⟩]).events
      = [Ev.error "[API error] 500: boom" true] ∧
    (cerebras_stream (fun _ => none)
        [AttemptOutcome.response 500 "boom" ⟨0, [], none⟩]).events.count Ev.endE
      = 0 :=
  ⟨by decide, by decide⟩

/-- C1, amended: for a session that is not ended by consumer cancellation,
if the upstream connection is established (a 200 response within the retry
budget), then — whether the stream then completes normally or raises
mid-stream — the event sequence contains exactly one `End`, it is the last
event, and nothing follows it; a session rejected with a non-200 status or
exhausting its connection retries instead emits exactly one terminal
`Error` as its only event, and no `End` at all. -/
theorem C1_amended :
    (∀ (jl : String → Option J) (pre : List String) (body : String)
        (st : StreamSpec) (rest : List AttemptOutcome),
        pre.length ≤ max_retries - 1 →
        (cerebras_stream jl (pre.map AttemptOutcome.raised ++
            AttemptOutcome.response 200 body st :: rest)).events
          = streamEvents jl st ∧
        (cerebras_stream jl (pre.map AttemptOutcome.raised ++
            AttemptOutcome.response 200 body st :: rest)).events.count Ev.endE
          = 1 ∧
        (cerebras_stream jl (pre.map AttemptOutcome.raised ++
            AttemptOutcome.response 200 body st :: rest)).events.getLast?
          = some Ev.endE) ∧
    (∀ (jl : String → Option J) (pre : List String) (status : Nat) (body : String)
        (st : StreamSpec) (rest : List AttemptOutcome),
        pre.length ≤ max_retries - 1 → status ≠ 200 →
        (cerebras_stream jl (pre.map AttemptOutcome.raised ++
            AttemptOutcome.response status body st :: rest)).events
          = [Ev.error (apiErrMsg status body) true] ∧
        Ev.endE ∉ (cerebras_stream jl (pre.map AttemptOutcome.raised ++
            AttemptOutcome.response status body st :: rest)).events) ∧
    (∀ (jl : String → Option J) (m1 m2 m3 : String) (rest : List AttemptOutcome),
        (cerebras_stream jl (AttemptOutcome.raised m1 :: AttemptOutcome.raised m2 ::
            AttemptOutcome.raised m3 :: rest)).events
          = [Ev.error (connErrMsg m3) true] ∧
        Ev.endE ∉ (cerebras_stream jl (AttemptOutcome.raised m1 ::
            AttemptOutcome.raised m2 :: AttemptOutcome.raised m3 :: rest)).events) := by
  refine ⟨?_, ?_, ?_⟩
  · intro jl pre body st rest hlen
    have hev : (cerebras_stream jl (pre.map AttemptOutcome.raised ++
        AttemptOutcome.response 200 body st :: rest)).events = streamEvents jl st := by
      rcases pre with _ | ⟨m1, _ | ⟨m2, _ | ⟨m3, t⟩⟩⟩
      · simp [cerebras_stream, runAttempts]
      · simp [cerebras_stream, runAttempts, max_retries]
      · simp [cerebras_stream, runAttempts, max_retries]
      · simp only [List.length_cons, max_retries] at hlen
        omega
    refine ⟨hev, ?_, ?_⟩ <;> rw [hev]
    · exact (streamEvents_end_count jl st).1
    · exact (streamEvents_end_count jl st).2
  · intro jl pre status body st rest hlen hs
    have hev : (cerebras_stream jl (pre.map AttemptOutcome.raised ++
        AttemptOutcome.response status body st :: rest)).events
          = [Ev.error (apiErrMsg status body) true] := by
      rcases pre with _ | ⟨m1, _ | ⟨m2, _ | ⟨m3, t⟩⟩⟩
      · simp [cerebras_stream, runAttempts, hs]
      · simp [cerebras_stream, runAttempts, max_retries, hs]
      · simp [cerebras_stream, runAttempts, max_retries, hs]
      · simp only [List.length_cons, max_retries] at hlen
        omega
    exact ⟨hev, by rw [hev]; simp⟩
  · intro jl m1 m2 m3 rest
    have hev : (cerebras_stream jl (AttemptOutcome.raised m1 ::
        AttemptOutcome.raised m2 :: AttemptOutcome.raised m3 :: rest)).events
          = [Ev.error (connErrMsg m3) true] := by
      simp [cerebras_stream, runAttempts, max_retries]
    exact ⟨hev, by rw [hev]; simp⟩

/-- C1, witness: the amended theorem at a concrete established session. -/
theorem C1_witness :
    ([] : List String).length ≤ max_retries - 1 ∧
    (cerebras_stream (fun _ => none)
        [AttemptOutcome.response 200 "" ⟨0, [], none⟩]).events.count Ev.endE = 1 :=
  ⟨by decide, (C1_amended.1 (fun _ => none) [] "" ⟨0, [], none⟩ [] (by decide)).2.1⟩

/-! ## Claim C2 -/

/-- C2, counterexample: after the non-200 rejection (HTTP 503 here) the
session emits the terminal error chunk and nothing else — in particular the
claimed trailing `End` event never appears. -/
theorem C2_counterexample :
    (cerebras_stream (fun _ => none)
        [AttemptOutcome.response 503 "overloaded" ⟨0, [], none⟩]).events
      = [Ev.error "[API error] 503: overloaded" true] ∧
    Ev.endE ∉ (cerebras_stream (fun _ => none)
        [AttemptOutcome.response 503 "overloaded" ⟨0, [], none⟩]).events :=
  ⟨by decide, by decide⟩

/-- C2, amended: a session whose first upstream response has a status other
than 200 performs no retry: it emits exactly one terminal `Error` event
carrying the status code and a body excerpt of at most 160 characters, and
nothing further — no `End` event and no sentinel — and no further upstream
request is issued (exactly one attempt is made). -/
theorem C2_amended :
    ∀ (jl : String → Option J) (status : Nat) (body : String) (st : StreamSpec)
      (rest : List AttemptOutcome), status ≠ 200 →
      (cerebras_stream jl (AttemptOutcome.response status body st :: rest)).events
        = [Ev.error (apiErrMsg status body) true] ∧
      (cerebras_stream jl (AttemptOutcome.response status body st :: rest)).sleeps
        = [] ∧
      (cerebras_stream jl
          (AttemptOutcome.response status body st :: rest)).attemptsMade = 1 ∧
      (cerebras_stream jl (AttemptOutcome.response status body st :: rest)).sentinel
        = false ∧
      (take160 body).length ≤ 160 := by
  intro jl status body st rest hs
  refine ⟨?_, ?_, ?_, ?_, take160_le body⟩ <;>
    simp [cerebras_stream, runAttempts, hs]

/-- C2, witness: the amended theorem at a concrete 404 rejection. -/
theorem C2_witness :
    (404 : Nat) ≠ 200 ∧
    (cerebras_stream (fun _ => none)
        [AttemptOutcome.response 404 "not found" ⟨0, [], none⟩]).attemptsMade = 1 :=
  ⟨by decide,
   (C2_amended (fun _ => none) 404 "not found" ⟨0, [], none⟩ [] (by decide)).2.2.1⟩

/-! ## Claim C3 -/

/-- C3, counterexample: the plain-text upstream line `"hello"` — non-blank,
not `[DONE]`, not JSON-looking — produces no event at all: the session
consists of `Start` and `End` only and no `Token "hello"` is ever emitted,
while the claim requires `Token{rawLineText}`. -/
theorem C3_counterexample :
    (cerebras_stream (fun _ => none)
        [AttemptOutcome.response 200 "" ⟨0, [(1, "hello")], none⟩]).events
      = [Ev.start, Ev.endE] ∧
    Ev.token "hello" ∉ (cerebras_stream (fun _ => none)
        [AttemptOutcome.response 200 "" ⟨0, [(1, "hello")], none⟩]).events :=
  ⟨by decide, by decide⟩

/-- C3, amended: a non-blank upstream line (after `data:` stripping) that is
not the `[DONE]` sentinel and from which no token is derived — because it
does not look like a JSON object, or because JSON parsing fails — is
silently skipped: the normaliser emits no event for it (its content is
dropped, not re-emitted verbatim). -/
theorem C3_amended :
    ∀ (jl : String → Option J) (raw : String),
      raw ≠ "" →
      normLine raw ≠ "[DONE]" →
      (¬ (strStarts "\x7b" (normLine raw) && strEnds "\x7d" (normLine raw)) = true
        ∨ jl (normLine raw) = none) →
      lineStep jl raw = ([], false) := by
  intro jl raw h0 h1 h2
  by_cases h3 :
      (strStarts "\x7b" (normLine raw) && strEnds "\x7d" (normLine raw)) = true
  · rcases h2 with h2 | h2
    · exact absurd h3 h2
    · simp [lineStep, h0, h1, h3, h2]
  · simp [lineStep, h0, h1, h3]

/-- C3, witness: the amended theorem at the concrete line `"plain text"`. -/
theorem C3_witness :
    ("plain text" ≠ "" ∧ normLine "plain text" ≠ "[DONE]") ∧
    lineStep (fun _ => none) "plain text" = ([], false) :=
  ⟨⟨by decide, by decide⟩,
   C3_amended (fun _ => none) "plain text" (by decide) (by decide)
     (Or.inr rfl)⟩

/-! ## Claim C7 -/

/-- Line processing itself never emits a heartbeat (heartbeats come only
from the timer check). -/
theorem heartbeat_not_in_lineStep (jl : String → Option J) (raw : String) :
    Ev.heartbeat ∉ (lineStep jl raw).1 := by
  rcases lineStep_events jl raw with hl | ⟨c, hl⟩ <;> simp [hl]

/-- When the interval has elapsed, processing the next line emits exactly
one heartbeat, first, and the continuation runs with the timer reset to the
line's arrival time. -/
theorem runLines_cons_fire (jl : String → Option J) (hb t : Int) (raw : String)
    (rest : List (Int × String)) (h : HEARTBEAT_INTERVAL ≤ t - hb) :
    (runLines jl hb ((t, raw) :: rest)).1
      = Ev.heartbeat :: ((lineStep jl raw).1 ++
          (if (lineStep jl raw).2 then [] else (runLines jl t rest).1)) := by
  have hh : hbStep hb t = ([Ev.heartbeat], t) := by simp [hbStep, h]
  cases hbk : (lineStep jl raw).2 <;> simp [runLines, hh, hbk]

/-- C7: within a session, whenever the elapsed time since the heartbeat
timer reaches or exceeds `HEARTBEAT_INTERVAL` (8 seconds) when the next
upstream line is processed, exactly one `Heartbeat` is emitted before that
line's resulting events and the timer is reset to the line's arrival time;
when the interval has not elapsed no heartbeat is emitted and the timer is
kept; and in particular, if no upstream line (hence no token) has arrived
for at least `HEARTBEAT_INTERVAL` since the previously processed line —
whose arrival time bounds the timer from above — exactly one `Heartbeat`
precedes the next line's resulting event. -/
theorem C7_heartbeat :
    (∀ (jl : String → Option J) (hb t : Int) (raw : String)
        (rest : List (Int × String)),
        HEARTBEAT_INTERVAL ≤ t - hb →
        (runLines jl hb ((t, raw) :: rest)).1
          = Ev.heartbeat :: ((lineStep jl raw).1 ++
              (if (lineStep jl raw).2 then [] else (runLines jl t rest).1)) ∧
        Ev.heartbeat ∉ (lineStep jl raw).1) ∧
    (∀ (jl : String → Option J) (hb t : Int) (raw : String)
        (rest : List (Int × String)),
        t - hb < HEARTBEAT_INTERVAL →
        (runLines jl hb ((t, raw) :: rest)).1
          = (lineStep jl raw).1 ++
              (if (lineStep jl raw).2 then [] else (runLines jl hb rest).1)) ∧
    (∀ (jl : String → Option J) (hb tPrev t : Int) (raw : String)
        (rest : List (Int × String)),
        hb ≤ tPrev → tPrev + HEARTBEAT_INTERVAL ≤ t →
        (runLines jl hb ((t, raw) :: rest)).1
          = Ev.heartbeat :: ((lineStep jl raw).1 ++
              (if (lineStep jl raw).2 then [] else (runLines jl t rest).1)) ∧
        Ev.heartbeat ∉ (lineStep jl raw).1) := by
  refine ⟨?_, ?_, ?_⟩
  · intro jl hb t raw rest h
    exact ⟨runLines_cons_fire jl hb t raw rest h, heartbeat_not_in_lineStep jl raw⟩
  · intro jl hb t raw rest h
    have hh : hbStep hb t = ([], hb) := by simp [hbStep, not_le.mpr h]
    cases hbk : (lineStep jl raw).2 <;> simp [runLines, hh, hbk]
  · intro jl hb tPrev t raw rest h1 h2
    have h : HEARTBEAT_INTERVAL ≤ t - hb := by omega
    exact ⟨runLines_cons_fire jl hb t raw rest h, heartbeat_not_in_lineStep jl raw⟩

/-- C7, witness: a silent gap of exactly the interval fires one heartbeat. -/
theorem C7_witness :
    HEARTBEAT_INTERVAL ≤ (8 : Int) - 0 ∧
    (runLines (fun _ => none) 0 [(8, "x")]).1
      = Ev.heartbeat :: ((lineStep (fun _ => none) "x").1 ++
          (if (lineStep (fun _ => none) "x").2 then []
           else (runLines (fun _ => none) 8 []).1)) :=
  ⟨by decide,
   (C7_heartbeat.1 (fun _ => none) 0 8 "x" [] (by decide)).1⟩

/-! ## Claim C8 -/

/-- C8: when opening the upstream connection raises a network-level
exception on attempts 1 and 2 and succeeds (HTTP 200) on attempt 3, the
session proceeds normally — its events are exactly those of an established
session, no error event of any kind is visible to the consumer — and the
client waits `backoffBase * 2^(attempt-1)` seconds before each retry
(attempts 1 and 2) and does not wait after the final attempt: the sleep
list is exactly those two waits. -/
theorem C8_backoff :
    ∀ (jl : String → Option J) (m1 m2 body : String) (t0 : Int)
      (lines : List (Int × String)),
      (cerebras_stream jl [AttemptOutcome.raised m1, AttemptOutcome.raised m2,
          AttemptOutcome.response 200 body ⟨t0, lines, none⟩]).events
        = streamEvents jl ⟨t0, lines, none⟩ ∧
      (∀ (m : String) (b : Bool),
        Ev.error m b ∉ (cerebras_stream jl [AttemptOutcome.raised m1,
            AttemptOutcome.raised m2,
            AttemptOutcome.response 200 body ⟨t0, lines, none⟩]).events) ∧
      (cerebras_stream jl [AttemptOutcome.raised m1, AttemptOutcome.raised m2,
          AttemptOutcome.response 200 body ⟨t0, lines, none⟩]).sleeps
        = [backoffBase * 2 ^ 0, backoffBase * 2 ^ 1] ∧
      (cerebras_stream jl [AttemptOutcome.raised m1, AttemptOutcome.raised m2,
          AttemptOutcome.response 200 body ⟨t0, lines, none⟩]).attemptsMade = 3 := by
  intro jl m1 m2 body t0 lines
  have hev : (cerebras_stream jl [AttemptOutcome.raised m1, AttemptOutcome.raised m2,
      AttemptOutcome.response 200 body ⟨t0, lines, none⟩]).events
        = streamEvents jl ⟨t0, lines, none⟩ := by
    simp [cerebras_stream, runAttempts, max_retries]
  refine ⟨hev, ?_, ?_, ?_⟩
  · intro m b hmem
    rcases hr : runLines jl t0 lines with ⟨evs, brk⟩
    have hnoerr : Ev.error m b ∉ evs := by
      have h2 := runLines_no_error jl t0 lines m b
      rw [hr] at h2
      exact h2
    rw [hev] at hmem
    simp only [streamEvents, hr, ite_self, List.append_nil] at hmem
    rcases List.mem_cons.mp hmem with h | h
    · cases h
    · rcases List.mem_append.mp h with h2 | h2
      · exact hnoerr h2
      · simp at h2
  · simp [cerebras_stream, runAttempts, max_retries]
    norm_num [backoffWait, backoffBase]
  · simp [cerebras_stream, runAttempts, max_retries]

/-! ## Claim C9 -/

/-- C9, counterexample: a live response-cache entry stored under exactly the
request's key `generate_key "abcd" "bugs" 1` does not prevent the upstream
call: `review` computes the key but never consults the cache
("For demo purposes, we'll skip caching for now", app.py:878) and opens the
model stream unconditionally. -/
theorem C9_counterexample :
    (cacheGet (cacheSet response_cache 0 (generate_key "abcd" "bugs" 1) "cached")
        1 (generate_key "abcd" "bugs" 1)).1 = some "cached" ∧
    (review_relay
        (cacheSet response_cache 0 (generate_key "abcd" "bugs" 1) "cached")
        1 "abcd" "bugs" 1).consultedResponseCache = false ∧
    (review_relay
        (cacheSet response_cache 0 (generate_key "abcd" "bugs" 1) "cached")
        1 "abcd" "bugs" 1).opensUpstream = true :=
  ⟨by decide, by decide, by decide⟩

/-- C9, amended: the fetched-content cache is consulted before the GitHub
fetch, and a fresh hit with non-empty content is returned without any
network fetch (the source tests truthiness, so an empty cached string falls
through to the network); the response-dedup cache key
`(contentFingerprint, mode, fileCount)` is computed, but the response cache
is never consulted and the upstream model call is opened regardless of its
contents. -/
theorem C9_amended :
    (∀ (st : CacheState) (now : Int) (k : String) (net : Option String)
        (c : String),
        (cacheGet st now k).1 = some c → c ≠ "" →
        fetch_code st now k net
          = ⟨some c, false, (cacheGet st now k).2⟩) ∧
    (∀ (respCache : CacheState) (now : Int) (prompt_hash mode : String)
        (file_count : Nat),
        (review_relay respCache now prompt_hash mode file_count).opensUpstream
          = true ∧
        (review_relay respCache now prompt_hash mode
            file_count).consultedResponseCache = false ∧
        (review_relay respCache now prompt_hash mode file_count).cacheKey
          = generate_key prompt_hash mode file_count) := by
  constructor
  · intro st now k net c hc hne
    simp [fetch_code, hc, hne]
  · intro rc now ph mode fc
    exact ⟨rfl, rfl, rfl⟩

/-- C9, witness: a concrete fresh cache hit is served without a fetch. -/
theorem C9_witness :
    ((cacheGet (cacheSet github_cache 0 "o/r/b/p" "content") 1 "o/r/b/p").1
        = some "content" ∧ "content" ≠ "") ∧
    fetch_code (cacheSet github_cache 0 "o/r/b/p" "content") 1 "o/r/b/p" none
      = ⟨some "content", false,
          (cacheGet (cacheSet github_cache 0 "o/r/b/p" "content") 1 "o/r/b/p").2⟩ :=
  ⟨⟨by decide, by decide⟩,
   C9_amended.1 (cacheSet github_cache 0 "o/r/b/p" "content") 1 "o/r/b/p" none
     "content" (by decide) (by decide)⟩

/-! ## Helper lemmas: association lists -/

theorem find?_append_none {α : Type} {p : α → Bool} {l1 l2 : List α}
    (h : l1.find? p = none) : (l1 ++ l2).find? p = l2.find? p := by
  rw [List.find?_append, h, Option.none_or]

theorem lookupA_eq_none {α : Type} (l : List (String × α)) (k : String) :
    lookupA l k = none ↔ k ∉ l.map Prod.fst := by
  unfold lookupA
  rw [Option.map_eq_none', List.find?_eq_none]
  constructor
  · intro h hk
    rcases List.mem_map.mp hk with ⟨x, hx, hxk⟩
    exact h x hx (by simp [beq_iff_eq, hxk])
  · intro h x hx hxk
    exact h (List.mem_map.mpr ⟨x, hx, beq_iff_eq.mp hxk⟩)

theorem lookupA_mem {α : Type} {l : List (String × α)} {k : String} {v : α}
    (h : lookupA l k = some v) : (k, v) ∈ l := by
  simp only [lookupA, Option.map_eq_some'] at h
  obtain ⟨p, hp, hv⟩ := h
  have hmem := List.mem_of_find?_eq_some hp
  have hk0 := List.find?_some hp
  simp only [beq_iff_eq] at hk0
  have hkv : (k, v) = p := by rw [← hk0, ← hv]
  rwa [← hkv] at hmem

theorem mem_lookupA {α : Type} {l : List (String × α)} {k : String} {v : α}
    (hnd : (l.map Prod.fst).Nodup) (h : (k, v) ∈ l) : lookupA l k = some v := by
  induction l with
  | nil => cases h
  | cons p rest ih =>
    rcases List.mem_cons.mp h with rfl | hrest
    · simp [lookupA, List.find?_cons]
    · have hnd2 : (rest.map Prod.fst).Nodup := (List.nodup_cons.mp hnd).2
      have hp1 : p.1 ∉ rest.map Prod.fst := (List.nodup_cons.mp hnd).1
      have hk : k ∈ rest.map Prod.fst := List.mem_map.mpr ⟨(k, v), hrest, rfl⟩
      have hne : (p.1 == k) = false := by
        simp only [beq_eq_false_iff_ne, ne_eq]
        rintro rfl
        exact hp1 hk
      simp only [lookupA, List.find?_cons, hne]
      exact ih hnd2 hrest

theorem lookupA_map_upd {α : Type} (l : List (String × α)) (k k2 : String) (v : α) :
    lookupA (l.map fun p => if p.1 == k2 then (k2, v) else p) k
      = Option.map (fun q : String × α => (if q.1 == k2 then (k2, v) else q).2)
          (l.find? fun p => p.1 == k) := by
  unfold lookupA
  rw [List.find?_map]
  have hcomp : ((fun p : String × α => p.1 == k) ∘
      fun p => if p.1 == k2 then (k2, v) else p) = fun p : String × α => p.1 == k := by
    funext p
    by_cases h : (p.1 == k2) = true
    · simp [Function.comp, h, beq_iff_eq.mp h]
    · simp [Function.comp, h]
  rw [hcomp, Option.map_map]
  rfl

theorem lookupA_updA_self {α : Type} (l : List (String × α)) (k : String) (v : α) :
    lookupA (updA l k v) k = some v := by
  unfold updA
  by_cases hmem : l.any (fun p => p.1 == k) = true
  · rw [if_pos hmem, lookupA_map_upd]
    rcases hfind : l.find? (fun p => p.1 == k) with _ | q
    · exfalso
      rcases List.any_eq_true.mp hmem with ⟨x, hx, hxk⟩
      exact List.find?_eq_none.mp hfind x hx hxk
    · have hq := List.find?_some hfind
      simp only [beq_iff_eq] at hq
      rw [hfind]
      simp [hq]
  · rw [if_neg hmem]
    unfold lookupA
    rw [find?_append_none (List.find?_eq_none.mpr fun x hx hxk =>
      hmem (List.any_eq_true.mpr ⟨x, hx, hxk⟩))]
    simp [List.find?_cons]

theorem lookupA_updA_ne {α : Type} (l : List (String × α)) (k k2 : String) (v : α)
    (h : k ≠ k2) : lookupA (updA l k2 v) k = lookupA l k := by
  unfold updA
  by_cases hmem : l.any (fun p => p.1 == k2) = true
  · rw [if_pos hmem, lookupA_map_upd]
    rcases hfind : l.find? (fun p => p.1 == k) with _ | q
    · simp [lookupA, hfind]
    · have hq0 := List.find?_some hfind
      simp only [beq_iff_eq] at hq0
      rw [hfind]
      simp only [Option.map_some']
      rw [if_neg (by rw [hq0]; simp only [beq_iff_eq]; exact h)]
      simp [lookupA, hfind]
  · rw [if_neg hmem]
    unfold lookupA
    rcases hfind : l.find? (fun p => p.1 == k) with _ | q
    · rw [find?_append_none hfind]
      have hk2 : (((k2, v) : String × α).1 == k) = false := by
        simp only [beq_eq_false_iff_ne, ne_eq]
        exact fun hh => h hh.symm
      simp [List.find?_cons, hk2, hfind]
    · rw [List.find?_append, hfind]
      rfl

theorem any_key_iff {α : Type} (l : List (String × α)) (k : String) :
    l.any (fun p => p.1 == k) = true ↔ k ∈ l.map Prod.fst := by
  simp [List.any_eq_true, beq_iff_eq, List.mem_map]

theorem map_fst_updA_mem {α : Type} (l : List (String × α)) (k : String) (v : α)
    (hmem : l.any (fun p => p.1 == k) = true) :
    (updA l k v).map Prod.fst = l.map Prod.fst := by
  unfold updA
  rw [if_pos hmem, List.map_map]
  apply List.map_congr_left
  intro p _
  by_cases h : (p.1 == k) = true
  · simp [Function.comp, h, beq_iff_eq.mp h]
  · simp [Function.comp, h]

theorem map_fst_updA_not_mem {α : Type} (l : List (String × α)) (k : String) (v : α)
    (hmem : ¬l.any (fun p => p.1 == k) = true) :
    (updA l k v).map Prod.fst = l.map Prod.fst ++ [k] := by
  unfold updA
  rw [if_neg hmem, List.map_append]
  rfl

theorem map_fst_filter_key {α : Type} (l : List (String × α)) (f : String → Bool) :
    (l.filter fun p => f p.1).map Prod.fst = (l.map Prod.fst).filter f := by
  rw [List.filter_map]
  rfl

theorem map_fst_delA {α : Type} (l : List (String × α)) (k : String) :
    (delA l k).map Prod.fst = (l.map Prod.fst).filter (fun x => !(x == k)) :=
  map_fst_filter_key l (fun x => !(x == k))

theorem length_delA_lt {α : Type} (l : List (String × α)) (k : String)
    (h : k ∈ l.map Prod.fst) : (delA l k).length < l.length := by
  apply List.length_filter_lt_length_iff_exists.mpr
  rcases List.mem_map.mp h with ⟨x, hx, hxk⟩
  exact ⟨x, hx, by simp [hxk]⟩

theorem lookupA_cons_eq {α : Type} (p : String × α) (rest : List (String × α))
    (k : String) (hpk : (p.1 == k) = true) :
    lookupA (p :: rest) k = some p.2 := by
  simp [lookupA, List.find?_cons, hpk]

theorem lookupA_cons_ne {α : Type} (p : String × α) (rest : List (String × α))
    (k : String) (hpk : (p.1 == k) = false) :
    lookupA (p :: rest) k = lookupA rest k := by
  simp [lookupA, List.find?_cons, hpk]

theorem lookupA_delA_ne {α : Type} (l : List (String × α)) (k k2 : String)
    (h : k ≠ k2) : lookupA (delA l k2) k = lookupA l k := by
  induction l with
  | nil => rfl
  | cons p rest ih =>
    by_cases hp2 : (p.1 == k2) = true
    · have hpk : (p.1 == k) = false := by
        simp only [beq_eq_false_iff_ne, ne_eq, beq_iff_eq.mp hp2]
        exact fun hh => h hh.symm
      have hd : delA (p :: rest) k2 = delA rest k2 := by
        simp [delA, List.filter_cons, hp2]
      rw [hd, ih, lookupA_cons_ne p rest k hpk]
    · have hd : delA (p :: rest) k2 = p :: delA rest k2 := by
        simp [delA, List.filter_cons, hp2]
      by_cases hpk : (p.1 == k) = true
      · rw [hd, lookupA_cons_eq _ _ _ hpk, lookupA_cons_eq _ _ _ hpk]
      · have hpk2 : (p.1 == k) = false := by simpa using hpk
        rw [hd, lookupA_cons_ne _ _ _ hpk2, ih, lookupA_cons_ne _ _ _ hpk2]

theorem foldl_min_mem (l : List (String × Int)) (acc : String × Int) :
    l.foldl (fun acc q => if q.2 < acc.2 then q else acc) acc ∈ acc :: l := by
  induction l generalizing acc with
  | nil => simp
  | cons q rest ih =>
    rw [List.foldl_cons]
    rcases List.mem_cons.mp (ih (if q.2 < acc.2 then q else acc)) with h2 | h2
    · rw [h2]
      by_cases hlt : q.2 < acc.2
      · simp [hlt]
      · simp [hlt]
    · exact List.mem_cons_of_mem _ (List.mem_cons_of_mem _ h2)

theorem minKey_mem {l : List (String × Int)} {p : String × Int}
    (h : minKey l = some p) : p ∈ l := by
  cases l with
  | nil => cases h
  | cons q rest =>
    simp only [minKey, Option.some.injEq] at h
    rw [← h]
    exact foldl_min_mem rest q

theorem minKey_head (q : String × Int) (rest : List (String × Int))
    (h : ∀ x ∈ rest, ¬x.2 < q.2) : minKey (q :: rest) = some q := by
  simp only [minKey, Option.some.injEq]
  induction rest with
  | nil => rfl
  | cons x rs ih =>
    rw [List.foldl_cons, if_neg (h x (List.mem_cons_self _ _))]
    exact ih fun y hy => h y (List.mem_cons_of_mem _ hy)

/-! ## Helper lemmas: cache states -/

theorem lookupA_filter_keep {α : Type} (l : List (String × α)) (f : String → Bool)
    (k : String) (hk : f k = true) :
    lookupA (l.filter fun p => f p.1) k = lookupA l k := by
  induction l with
  | nil => rfl
  | cons p rest ih =>
    by_cases hpk : (p.1 == k) = true
    · have hf : f p.1 = true := by rw [beq_iff_eq.mp hpk]; exact hk
      rw [List.filter_cons, if_pos (by simpa using hf), lookupA_cons_eq _ _ _ hpk,
        lookupA_cons_eq _ _ _ hpk]
    · have hpk2 : (p.1 == k) = false := by simpa using hpk
      by_cases hf : f p.1 = true
      · rw [List.filter_cons, if_pos (by simpa using hf),
          lookupA_cons_ne _ _ _ hpk2, lookupA_cons_ne _ _ _ hpk2, ih]
      · rw [List.filter_cons, if_neg (by simpa using hf), ih,
          lookupA_cons_ne _ _ _ hpk2]

theorem lookupA_filter_drop {α : Type} (l : List (String × α)) (f : String → Bool)
    (k : String) (hk : f k = false) :
    lookupA (l.filter fun p => f p.1) k = none := by
  apply (lookupA_eq_none _ _).mpr
  intro hmem
  rw [map_fst_filter_key] at hmem
  have := (List.mem_filter.mp hmem).2
  rw [hk] at this
  cases this

/-- The key-indexed keep test of `_evict_expired`. -/
def evictKeep (now : Int) (st : CacheState) (k : String) : Bool :=
  match lookupA st.access k with
  | some t => !(isExpiredAt st.ttl now t)
  | none => true

theorem evict_cache_eq (now : Int) (st : CacheState) :
    (evictExpired now st).cache = st.cache.filter fun p => evictKeep now st p.1 :=
  rfl

theorem evict_access_eq (now : Int) (st : CacheState)
    (hnd : (st.access.map Prod.fst).Nodup) :
    (evictExpired now st).access = st.access.filter fun p => evictKeep now st p.1 := by
  show st.access.filter _ = _
  apply List.filter_congr
  intro q hq
  have hl : lookupA st.access q.1 = some q.2 := mem_lookupA hnd hq
  simp [evictKeep, hl]

theorem WF_evict (now : Int) (st : CacheState) (h : WF st) :
    WF (evictExpired now st) := by
  obtain ⟨heq, hnd⟩ := h
  have h1 : (evictExpired now st).cache.map Prod.fst
      = (st.cache.map Prod.fst).filter (evictKeep now st) := by
    rw [evict_cache_eq]
    exact map_fst_filter_key st.cache _
  have h2 : (evictExpired now st).access.map Prod.fst
      = (st.access.map Prod.fst).filter (evictKeep now st) := by
    rw [evict_access_eq now st hnd]
    exact map_fst_filter_key st.access _
  constructor
  · rw [h1, h2, heq]
  · rw [h2]
    exact List.Nodup.filter _ hnd

theorem evict_fields (now : Int) (st : CacheState) :
    (evictExpired now st).maxSize = st.maxSize ∧
    (evictExpired now st).ttl = st.ttl := ⟨rfl, rfl⟩

theorem evict_len_le (now : Int) (st : CacheState) :
    (evictExpired now st).cache.length ≤ st.cache.length :=
  List.length_filter_le _ _

theorem WF_length_eq {st : CacheState} (h : WF st) :
    st.cache.length = st.access.length := by
  have := congrArg List.length h.1
  simpa using this

theorem cacheGet_fst (st : CacheState) (now : Int) (k : String) :
    (cacheGet st now k).1 = lookupA (evictExpired now st).cache k := by
  simp only [cacheGet]
  rcases lookupA (evictExpired now st).cache k with _ | v <;> rfl

theorem cacheGet_snd (st : CacheState) (now : Int) (k : String) :
    (cacheGet st now k).2 =
      match lookupA (evictExpired now st).cache k with
      | some _ => { evictExpired now st with
                    access := updA (evictExpired now st).access k now }
      | none => evictExpired now st := by
  simp only [cacheGet]
  rcases lookupA (evictExpired now st).cache k with _ | v <;> rfl

theorem length_updA_le {α : Type} (l : List (String × α)) (k : String) (v : α) :
    (updA l k v).length ≤ l.length + 1 := by
  unfold updA
  split
  · simp
  · simp

theorem minKey_eq_none {l : List (String × Int)} (h : minKey l = none) : l = [] := by
  cases l with
  | nil => rfl
  | cons q rest => cases h

theorem WF_del (st : CacheState) (kd : String) (h : WF st) :
    WF { st with cache := delA st.cache kd, access := delA st.access kd } := by
  obtain ⟨heq, hnd⟩ := h
  constructor
  · show (delA st.cache kd).map Prod.fst = (delA st.access kd).map Prod.fst
    rw [map_fst_delA, map_fst_delA, heq]
  · show ((delA st.access kd).map Prod.fst).Nodup
    rw [map_fst_delA]
    exact List.Nodup.filter _ hnd

theorem WF_upd (st : CacheState) (k : String) (v : String) (now : Int)
    (h : WF st) :
    WF { st with cache := updA st.cache k v, access := updA st.access k now } := by
  obtain ⟨heq, hnd⟩ := h
  by_cases hany : st.access.any (fun p => p.1 == k) = true
  · have hanyc : st.cache.any (fun p => p.1 == k) = true := by
      rw [any_key_iff] at hany ⊢
      rw [heq]
      exact hany
    constructor
    · show (updA st.cache k v).map Prod.fst = (updA st.access k now).map Prod.fst
      rw [map_fst_updA_mem _ _ _ hanyc, map_fst_updA_mem _ _ _ hany]
      exact heq
    · show ((updA st.access k now).map Prod.fst).Nodup
      rw [map_fst_updA_mem _ _ _ hany]
      exact hnd
  · have hanyc : ¬st.cache.any (fun p => p.1 == k) = true := by
      rw [any_key_iff] at hany ⊢
      rw [heq]
      exact hany
    have hknot : k ∉ st.access.map Prod.fst := by
      rw [← any_key_iff]
      exact hany
    constructor
    · show (updA st.cache k v).map Prod.fst = (updA st.access k now).map Prod.fst
      rw [map_fst_updA_not_mem _ _ _ hanyc, map_fst_updA_not_mem _ _ _ hany, heq]
    · show ((updA st.access k now).map Prod.fst).Nodup
      rw [map_fst_updA_not_mem _ _ _ hany]
      simp [List.nodup_append, hnd, hknot]

theorem WF_get (st : CacheState) (now : Int) (k : String) (h : WF st) :
    WF ((cacheGet st now k).2) := by
  have h1 := WF_evict now st h
  rw [cacheGet_snd]
  rcases hl : lookupA (evictExpired now st).cache k with _ | v
  · exact h1
  · obtain ⟨heq, hnd⟩ := h1
    have hk : k ∈ (evictExpired now st).cache.map Prod.fst := by
      by_contra hk
      have h2 := (lookupA_eq_none _ _).mpr hk
      rw [h2] at hl
      cases hl
    have hany : (evictExpired now st).access.any (fun p => p.1 == k) = true := by
      rw [any_key_iff, ← heq]
      exact hk
    constructor
    · show (evictExpired now st).cache.map Prod.fst
        = (updA (evictExpired now st).access k now).map Prod.fst
      rw [map_fst_updA_mem _ _ _ hany]
      exact heq
    · show ((updA (evictExpired now st).access k now).map Prod.fst).Nodup
      rw [map_fst_updA_mem _ _ _ hany]
      exact hnd

theorem cacheGet_cache (st : CacheState) (now : Int) (k : String) :
    (cacheGet st now k).2.cache = (evictExpired now st).cache := by
  rw [cacheGet_snd]
  rcases lookupA (evictExpired now st).cache k with _ | v <;> rfl

theorem cacheGet_fields (st : CacheState) (now : Int) (k : String) :
    (cacheGet st now k).2.maxSize = st.maxSize ∧
    (cacheGet st now k).2.ttl = st.ttl := by
  rw [cacheGet_snd]
  rcases lookupA (evictExpired now st).cache k with _ | v <;> exact ⟨rfl, rfl⟩

theorem cacheSet_fields (st : CacheState) (now : Int) (k v : String) :
    (cacheSet st now k v).maxSize = st.maxSize ∧
    (cacheSet st now k v).ttl = st.ttl := by
  simp only [cacheSet]
  split
  · rcases minKey (evictExpired now st).access with _ | old <;> exact ⟨rfl, rfl⟩
  · exact ⟨rfl, rfl⟩

theorem WF_set (st : CacheState) (now : Int) (k v : String) (h : WF st) :
    WF (cacheSet st now k v) := by
  have h1 := WF_evict now st h
  simp only [cacheSet]
  split
  · rcases hmk : minKey (evictExpired now st).access with _ | old
    · exact WF_upd _ _ _ _ h1
    · exact WF_upd _ _ _ _ (WF_del _ _ h1)
  · exact WF_upd _ _ _ _ h1

theorem cacheSet_len (st : CacheState) (now : Int) (k v : String) (h : WF st)
    (hm : 1 ≤ st.maxSize) (hlen : st.cache.length ≤ st.maxSize) :
    (cacheSet st now k v).cache.length ≤ st.maxSize := by
  have h1 := WF_evict now st h
  have hlen1 : (evictExpired now st).cache.length ≤ st.maxSize :=
    le_trans (evict_len_le now st) hlen
  simp only [cacheSet]
  split
  case isTrue hcap =>
    rcases hmk : minKey (evictExpired now st).access with _ | old
    · exfalso
      have hnil := minKey_eq_none hmk
      have hlene : (evictExpired now st).cache.length
          = (evictExpired now st).access.length := WF_length_eq h1
      rw [hnil] at hlene
      simp only [List.length_nil] at hlene
      rw [hlene] at hcap
      have : (evictExpired now st).maxSize = st.maxSize := (evict_fields now st).1
      omega
    · have hold : old ∈ (evictExpired now st).access := minKey_mem hmk
      have holdk : old.1 ∈ (evictExpired now st).cache.map Prod.fst := by
        rw [h1.1]
        exact List.mem_map.mpr ⟨old, hold, rfl⟩
      have hdel : (delA (evictExpired now st).cache old.1).length
          < (evictExpired now st).cache.length := length_delA_lt _ _ holdk
      have := length_updA_le (delA (evictExpired now st).cache old.1) k v
      show (updA (delA (evictExpired now st).cache old.1) k v).length ≤ st.maxSize
      omega
  case isFalse hcap =>
    have hmax : (evictExpired now st).maxSize = st.maxSize := (evict_fields now st).1
    rw [hmax] at hcap
    have := length_updA_le (evictExpired now st).cache k v
    show (updA (evictExpired now st).cache k v).length ≤ st.maxSize
    omega

theorem applyOp_inv (st : CacheState) (op : COp) (h : WF st)
    (hm : 1 ≤ st.maxSize) (hlen : st.cache.length ≤ st.maxSize) :
    WF (applyOp st op) ∧ (applyOp st op).maxSize = st.maxSize ∧
    (applyOp st op).ttl = st.ttl ∧
    (applyOp st op).cache.length ≤ st.maxSize := by
  cases op with
  | cset k2 v2 t =>
    exact ⟨WF_set st t k2 v2 h, (cacheSet_fields st t k2 v2).1,
      (cacheSet_fields st t k2 v2).2, cacheSet_len st t k2 v2 h hm hlen⟩
  | cget k2 t =>
    refine ⟨WF_get st t k2 h, (cacheGet_fields st t k2).1,
      (cacheGet_fields st t k2).2, ?_⟩
    show (cacheGet st t k2).2.cache.length ≤ st.maxSize
    rw [cacheGet_cache]
    exact le_trans (evict_len_le t st) hlen

theorem applySeq_inv (ops : List COp) (st : CacheState) (h : WF st)
    (hm : 1 ≤ st.maxSize) (hlen : st.cache.length ≤ st.maxSize) :
    WF (applySeq st ops) ∧ (applySeq st ops).maxSize = st.maxSize ∧
    (applySeq st ops).ttl = st.ttl ∧
    (applySeq st ops).cache.length ≤ st.maxSize := by
  induction ops generalizing st with
  | nil => exact ⟨h, rfl, rfl, hlen⟩
  | cons op rest ih =>
    obtain ⟨h1, h2, h3, h4⟩ := applyOp_inv st op h hm hlen
    have hstep := ih (applyOp st op) h1 (by rw [h2]; exact hm)
      (by rw [h2]; exact h4)
    show WF (applySeq (applyOp st op) rest) ∧ _
    rw [h2, h3] at hstep
    exact hstep

/-! ## Claim C6 -/

/-- C6: for every cache instance (any `max_size ≥ 1` and any TTL, covering
both constructed instances) and every finite sequence of interleaved `set`
and `get` calls starting from a fresh cache, the number of live entries is
at most `max_size` after every call of the sequence.  (`max_size = 0` is
excluded: there the source's `set` raises `ValueError` on `min()` of an
empty dict instead of storing anything.) -/
theorem C6_size_invariant :
    ∀ (m : Nat) (ttl : Int) (ops : List COp), 1 ≤ m →
      ∀ n : Nat, (applySeq (emptyCache m ttl) (ops.take n)).cache.length ≤ m := by
  intro m ttl ops hm n
  exact (applySeq_inv (ops.take n) (emptyCache m ttl)
    ⟨rfl, List.nodup_nil⟩ hm (by simp [emptyCache])).2.2.2

/-- C6, witness: a concrete interleaved sequence on a capacity-1 cache. -/
theorem C6_witness :
    1 ≤ 1 ∧
    (applySeq (emptyCache 1 10)
      ([COp.cset "a" "x" 0, COp.cset "b" "y" 1, COp.cget "a" 2].take 3)).cache.length
      ≤ 1 :=
  ⟨Nat.le_refl 1,
   C6_size_invariant 1 10 [COp.cset "a" "x" 0, COp.cset "b" "y" 1, COp.cget "a" 2]
     (Nat.le_refl 1) 3⟩

/-! ## Helper lemmas: a key untouched by later operations -/

theorem cacheSet_lookup (st : CacheState) (now : Int) (k v : String) :
    lookupA (cacheSet st now k v).cache k = some v ∧
    lookupA (cacheSet st now k v).access k = some now := by
  simp only [cacheSet]
  split
  · rcases minKey (evictExpired now st).access with _ | old <;>
      exact ⟨lookupA_updA_self _ _ _, lookupA_updA_self _ _ _⟩
  · exact ⟨lookupA_updA_self _ _ _, lookupA_updA_self _ _ _⟩

theorem evict_preserves_key (now : Int) (st : CacheState) (h : WF st)
    (k : String) (t1 : Int)
    (hp : lookupA st.access k = some t1 ∨ k ∉ st.access.map Prod.fst) :
    lookupA (evictExpired now st).access k = some t1 ∨
    k ∉ (evictExpired now st).access.map Prod.fst := by
  rcases hp with hp | hp
  · by_cases hkeep : evictKeep now st k = true
    · left
      rw [evict_access_eq now st h.2, lookupA_filter_keep _ _ _ hkeep]
      exact hp
    · right
      have hk2 : evictKeep now st k = false := by simpa using hkeep
      rw [evict_access_eq now st h.2]
      exact (lookupA_eq_none _ _).mp
        (lookupA_filter_drop st.access (evictKeep now st) k hk2)
  · right
    intro hmem
    apply hp
    rw [evict_access_eq now st h.2, map_fst_filter_key] at hmem
    exact List.mem_of_mem_filter hmem

theorem del_preserves_key (l : List (String × Int)) (kd k : String) (t1 : Int)
    (hp : lookupA l k = some t1 ∨ k ∉ l.map Prod.fst) :
    lookupA (delA l kd) k = some t1 ∨ k ∉ (delA l kd).map Prod.fst := by
  by_cases hkd : k = kd
  · right
    rw [hkd, map_fst_delA]
    intro hmem
    simpa using (List.mem_filter.mp hmem).2
  · rcases hp with hp | hp
    · left
      rw [lookupA_delA_ne _ _ _ hkd]
      exact hp
    · right
      intro hmem
      apply hp
      rw [map_fst_delA] at hmem
      exact List.mem_of_mem_filter hmem

theorem upd_preserves_key {α : Type} (l : List (String × α)) (k2 k : String)
    (v : α) (w : α) (hne : k ≠ k2)
    (hp : lookupA l k = some w ∨ k ∉ l.map Prod.fst) :
    lookupA (updA l k2 v) k = some w ∨ k ∉ (updA l k2 v).map Prod.fst := by
  rcases hp with hp | hp
  · left
    rw [lookupA_updA_ne _ _ _ _ hne]
    exact hp
  · by_cases hany : l.any (fun p => p.1 == k2) = true
    · right
      rw [map_fst_updA_mem _ _ _ hany]
      exact hp
    · right
      rw [map_fst_updA_not_mem _ _ _ hany]
      simp [hp, hne]

theorem applyOp_WF (st : CacheState) (op : COp) (h : WF st) :
    WF (applyOp st op) := by
  cases op with
  | cset k v t => exact WF_set st t k v h
  | cget k t => exact WF_get st t k h

theorem applyOp_ttl (st : CacheState) (op : COp) :
    (applyOp st op).ttl = st.ttl := by
  cases op with
  | cset k v t => exact (cacheSet_fields st t k v).2
  | cget k t => exact (cacheGet_fields st t k).2

theorem applyOp_preserves_key (st : CacheState) (op : COp) (h : WF st)
    (k : String) (t1 : Int) (hne : op.key ≠ k)
    (hp : lookupA st.access k = some t1 ∨ k ∉ st.access.map Prod.fst) :
    lookupA (applyOp st op).access k = some t1 ∨
    k ∉ (applyOp st op).access.map Prod.fst := by
  cases op with
  | cset k2 v2 t =>
    have hkne : k ≠ k2 := fun hh => hne (by simpa [COp.key] using hh.symm)
    have hp1 := evict_preserves_key t st h k t1 hp
    simp only [applyOp, cacheSet]
    split
    · rcases minKey (evictExpired t st).access with _ | old
      · exact upd_preserves_key _ k2 k t t1 hkne hp1
      · exact upd_preserves_key _ k2 k t t1 hkne
          (del_preserves_key _ old.1 k t1 hp1)
    · exact upd_preserves_key _ k2 k t t1 hkne hp1
  | cget k2 t =>
    have hkne : k ≠ k2 := fun hh => hne (by simpa [COp.key] using hh.symm)
    have hp1 := evict_preserves_key t st h k t1 hp
    simp only [applyOp]
    rw [cacheGet_snd]
    rcases lookupA (evictExpired t st).cache k2 with _ | v
    · exact hp1
    · exact upd_preserves_key _ k2 k t t1 hkne hp1

theorem applySeq_preserves_key (ops : List COp) (st : CacheState) (h : WF st)
    (k : String) (t1 : Int) (hne : ∀ op ∈ ops, op.key ≠ k)
    (hp : lookupA st.access k = some t1 ∨ k ∉ st.access.map Prod.fst) :
    lookupA (applySeq st ops).access k = some t1 ∨
    k ∉ (applySeq st ops).access.map Prod.fst := by
  induction ops generalizing st with
  | nil => exact hp
  | cons op rest ih =>
    exact ih (applyOp st op) (applyOp_WF st op h)
      (fun o ho => hne o (List.mem_cons_of_mem _ ho))
      (applyOp_preserves_key st op h k t1 (hne op (List.mem_cons_self _ _)) hp)

theorem applySeq_WF (ops : List COp) (st : CacheState) (h : WF st) :
    WF (applySeq st ops) := by
  induction ops generalizing st with
  | nil => exact h
  | cons op rest ih => exact ih (applyOp st op) (applyOp_WF st op h)

theorem applySeq_ttl (ops : List COp) (st : CacheState) :
    (applySeq st ops).ttl = st.ttl := by
  induction ops generalizing st with
  | nil => rfl
  | cons op rest ih =>
    show (applySeq (applyOp st op) rest).ttl = st.ttl
    rw [ih, applyOp_ttl]

/-! ## Claim C4 -/

/-- C4: for either cache (the state is arbitrary well-formed, covering both
instances), after `set(k, v)` at time `t1`: a `get(k)` strictly less than
`ttl` later returns `v`; and a `get(k)` strictly more than `ttl` later —
with no intervening operation on `k` (operations on other keys are allowed
and quantified over) — returns absent and removes the expired entry from
the store as a side effect. -/
theorem C4_ttl :
    ∀ (st : CacheState) (k v : String) (t1 : Int) (ops : List COp),
      WF st →
      (∀ op ∈ ops, op.key ≠ k) →
      (∀ t2 : Int, t2 - t1 < st.ttl →
        (cacheGet (cacheSet st t1 k v) t2 k).1 = some v) ∧
      (∀ t2 : Int, st.ttl < t2 - t1 →
        (cacheGet (applySeq (cacheSet st t1 k v) ops) t2 k).1 = none ∧
        k ∉ (cacheGet (applySeq (cacheSet st t1 k v) ops) t2 k).2.cache.map
          Prod.fst) := by
  intro st k v t1 ops hwf hops
  have hset := cacheSet_lookup st t1 k v
  have hwf1 : WF (cacheSet st t1 k v) := WF_set st t1 k v hwf
  have httl1 : (cacheSet st t1 k v).ttl = st.ttl := (cacheSet_fields st t1 k v).2
  constructor
  · intro t2 hlt
    rw [cacheGet_fst]
    have hkeep : evictKeep t2 (cacheSet st t1 k v) k = true := by
      have hnl : ¬(cacheSet st t1 k v).ttl < t2 - t1 := by
        rw [httl1]
        exact not_lt.mpr (le_of_lt hlt)
      simp [evictKeep, hset.2, isExpiredAt, hnl]
    rw [evict_cache_eq, lookupA_filter_keep _ _ _ hkeep]
    exact hset.1
  · intro t2 hgt
    have hwf2 : WF (applySeq (cacheSet st t1 k v) ops) := applySeq_WF ops _ hwf1
    have httl2 : (applySeq (cacheSet st t1 k v) ops).ttl = st.ttl := by
      rw [applySeq_ttl, httl1]
    have hp2 := applySeq_preserves_key ops (cacheSet st t1 k v) hwf1 k t1 hops
      (Or.inl hset.2)
    have hnone : lookupA
        (evictExpired t2 (applySeq (cacheSet st t1 k v) ops)).cache k = none := by
      rcases hp2 with hp | hp
      · have hexp : (applySeq (cacheSet st t1 k v) ops).ttl < t2 - t1 := by
          rw [httl2]
          exact hgt
        have hkf : evictKeep t2 (applySeq (cacheSet st t1 k v) ops) k = false := by
          simp [evictKeep, hp, isExpiredAt, hexp]
        rw [evict_cache_eq]
        exact lookupA_filter_drop _ _ _ hkf
      · apply (lookupA_eq_none _ _).mpr
        intro hmem
        apply hp
        rw [evict_cache_eq, map_fst_filter_key] at hmem
        have hmem2 := List.mem_of_mem_filter hmem
        rw [hwf2.1] at hmem2
        exact hmem2
    constructor
    · rw [cacheGet_fst]
      exact hnone
    · rw [cacheGet_cache]
      exact (lookupA_eq_none _ _).mp hnone

/-- C4, witness: a fresh-state instance with `ttl = 10`, reading at 5 and
at 11 seconds after the write. -/
theorem C4_witness :
    WF (emptyCache 2 10) ∧
    (cacheGet (cacheSet (emptyCache 2 10) 0 "k" "v") 5 "k").1 = some "v" ∧
    (cacheGet (cacheSet (emptyCache 2 10) 0 "k" "v") 11 "k").1 = none := by
  have h := C4_ttl (emptyCache 2 10) "k" "v" 0 [] ⟨rfl, List.nodup_nil⟩
    (by simp)
  exact ⟨⟨rfl, List.nodup_nil⟩, h.1 5 (by decide), (h.2 11 (by decide)).1⟩

/-! ## Helper lemmas: runs of fresh inserts (for the LRU eviction claim) -/

theorem evict_noop (now : Int) (st : CacheState)
    (h : ∀ p ∈ st.access, ¬st.ttl < now - p.2) :
    evictExpired now st = st := by
  have hacc : st.access.filter (fun p => !(isExpiredAt st.ttl now p.2))
      = st.access := by
    apply List.filter_eq_self.mpr
    intro p hp
    simp [isExpiredAt, h p hp]
  have hcache : st.cache.filter (fun p =>
      match lookupA st.access p.1 with
      | some t => !(isExpiredAt st.ttl now t)
      | none => true) = st.cache := by
    apply List.filter_eq_self.mpr
    intro p hp
    rcases hl : lookupA st.access p.1 with _ | t
    · simp
    · have hmem := lookupA_mem hl
      have hne := h (p.1, t) hmem
      simp [isExpiredAt, hne]
  unfold evictExpired
  rw [hcache, hacc]

theorem updA_not_mem_eq {α : Type} (l : List (String × α)) (k : String) (v : α)
    (h : ¬l.any (fun p => p.1 == k) = true) : updA l k v = l ++ [(k, v)] := by
  unfold updA
  rw [if_neg h]

theorem delA_cons_head {α : Type} (k : String) (x : α) (rest : List (String × α))
    (h : k ∉ rest.map Prod.fst) : delA ((k, x) :: rest) k = rest := by
  unfold delA
  rw [List.filter_cons]
  simp only [beq_self_eq_true, Bool.not_true, Bool.false_eq_true, if_false]
  apply List.filter_eq_self.mpr
  intro p hp
  have : p.1 ≠ k := by
    intro hh
    exact h (List.mem_map.mpr ⟨p, hp, hh⟩)
  simp [this]

theorem cacheSet_fresh (st : CacheState) (now : Int) (k v : String)
    (hnoexp : ∀ p ∈ st.access, ¬st.ttl < now - p.2)
    (hcap : st.cache.length < st.maxSize)
    (hkc : k ∉ st.cache.map Prod.fst)
    (hka : k ∉ st.access.map Prod.fst) :
    cacheSet st now k v
      = { st with cache := st.cache ++ [(k, v)],
                  access := st.access ++ [(k, now)] } := by
  unfold cacheSet
  simp only [evict_noop now st hnoexp]
  rw [if_neg (by omega : ¬st.maxSize ≤ st.cache.length)]
  rw [updA_not_mem_eq _ _ _ (fun hh => hkc ((any_key_iff _ _).mp hh)),
    updA_not_mem_eq _ _ _ (fun hh => hka ((any_key_iff _ _).mp hh))]

theorem applyInserts_cons (st : CacheState) (i : Ins) (L : List Ins) :
    applyInserts st (i :: L) = applyInserts (cacheSet st i.t i.key i.val) L := rfl

theorem applyInserts_fresh :
    ∀ (L : List Ins) (st : CacheState),
      st.cache.length + L.length ≤ st.maxSize →
      (∀ i ∈ L, i.key ∉ st.access.map Prod.fst) →
      (∀ i ∈ L, i.key ∉ st.cache.map Prod.fst) →
      (L.map Ins.key).Nodup →
      (∀ i ∈ L, ∀ p ∈ st.access, ¬st.ttl < i.t - p.2) →
      (∀ i ∈ L, ∀ j ∈ L, ¬st.ttl < i.t - j.t) →
      (applyInserts st L).cache = st.cache ++ L.map (fun i => (i.key, i.val)) ∧
      (applyInserts st L).access = st.access ++ L.map (fun i => (i.key, i.t)) ∧
      (applyInserts st L).maxSize = st.maxSize ∧
      (applyInserts st L).ttl = st.ttl := by
  intro L
  induction L with
  | nil =>
    intro st _ _ _ _ _ _
    simp [applyInserts]
  | cons i L ih =>
    intro st hlen hka hkc hnd htime hpair
    have hset : cacheSet st i.t i.key i.val
        = { st with cache := st.cache ++ [(i.key, i.val)],
                    access := st.access ++ [(i.key, i.t)] } :=
      cacheSet_fresh st i.t i.key i.val
        (fun p hp => htime i (List.mem_cons_self _ _) p hp)
        (by simp only [List.length_cons] at hlen; omega)
        (hkc i (List.mem_cons_self _ _))
        (hka i (List.mem_cons_self _ _))
    have hkeyL : ∀ i2 ∈ L, i2.key ≠ i.key := by
      intro i2 h2 hh
      have h3 : i.key ∉ L.map Ins.key := (List.nodup_cons.mp hnd).1
      exact h3 (List.mem_map.mpr ⟨i2, h2, hh⟩)
    have hstep := ih { st with cache := st.cache ++ [(i.key, i.val)],
                               access := st.access ++ [(i.key, i.t)] }
      (by simp only [List.length_append, List.length_cons, List.length_nil]
          simp only [List.length_cons] at hlen
          omega)
      (by intro i2 h2
          simp only [List.map_append, List.mem_append]
          rintro (hmem | hmem)
          · exact hka i2 (List.mem_cons_of_mem _ h2) hmem
          · simp only [List.map_cons, List.map_nil, List.mem_singleton] at hmem
            exact hkeyL i2 h2 hmem)
      (by intro i2 h2
          simp only [List.map_append, List.mem_append]
          rintro (hmem | hmem)
          · exact hkc i2 (List.mem_cons_of_mem _ h2) hmem
          · simp only [List.map_cons, List.map_nil, List.mem_singleton] at hmem
            exact hkeyL i2 h2 hmem)
      ((List.nodup_cons.mp hnd).2)
      (by intro i2 h2 p hp
          simp only [List.mem_append] at hp
          rcases hp with hp | hp
          · exact htime i2 (List.mem_cons_of_mem _ h2) p hp
          · simp only [List.mem_singleton] at hp
            rw [hp]
            exact hpair i2 (List.mem_cons_of_mem _ h2) i (List.mem_cons_self _ _))
      (fun i2 h2 j2 hj2 => hpair i2 (List.mem_cons_of_mem _ h2)
        j2 (List.mem_cons_of_mem _ hj2))
    rw [applyInserts_cons, hset]
    refine ⟨?_, ?_, hstep.2.2.1, hstep.2.2.2⟩
    · rw [hstep.1]
      simp [List.append_assoc]
    · rw [hstep.2.1]
      simp [List.append_assoc]

theorem cacheSet_evicting (st : CacheState) (now : Int) (k v : String)
    (hnoexp : ∀ p ∈ st.access, ¬st.ttl < now - p.2)
    (hcap : st.maxSize ≤ st.cache.length)
    (old : String × Int) (hmk : minKey st.access = some old)
    (hkc : k ∉ (delA st.cache old.1).map Prod.fst)
    (hka : k ∉ (delA st.access old.1).map Prod.fst) :
    cacheSet st now k v
      = { st with cache := delA st.cache old.1 ++ [(k, v)],
                  access := delA st.access old.1 ++ [(k, now)] } := by
  unfold cacheSet
  simp only [evict_noop now st hnoexp, hmk, if_pos hcap]
  rw [updA_not_mem_eq _ _ _ (fun hh => hkc ((any_key_iff _ _).mp hh)),
    updA_not_mem_eq _ _ _ (fun hh => hka ((any_key_iff _ _).mp hh))]

theorem applyInserts_append (st : CacheState) (A B : List Ins) :
    applyInserts st (A ++ B) = applyInserts (applyInserts st A) B := by
  unfold applyInserts
  rw [List.foldl_append]

/-! ## Claim C5 -/

/-- C5: starting from a fresh cache of capacity `maxSize ≥ 1`, inserting
`maxSize + 1` distinct keys via `set`, with non-decreasing clocks all within
`ttl` of each other and no intervening `get`s, leaves exactly `maxSize`
entries; the surviving keys are exactly all but the first inserted, so the
one absent key is the least-recently-touched, first-inserted one. -/
theorem C5_eviction :
    ∀ (m : Nat) (ttl : Int) (L : List Ins),
      1 ≤ m →
      L.length = m + 1 →
      (L.map Ins.key).Nodup →
      (L.map Ins.t).Chain' (· ≤ ·) →
      (∀ i ∈ L, ∀ j ∈ L, ¬ttl < i.t - j.t) →
      (applyInserts (emptyCache m ttl) L).cache.length = m ∧
      (applyInserts (emptyCache m ttl) L).cache.map Prod.fst
        = (L.map Ins.key).drop 1 ∧
      (∀ k0, (L.map Ins.key).head? = some k0 →
        k0 ∉ (applyInserts (emptyCache m ttl) L).cache.map Prod.fst) := by
  intro m ttl L hm hlen hnd hchain hpair
  have hsplit := List.take_append_drop m L
  have hdlen : (L.drop m).length = 1 := by
    rw [List.length_drop, hlen]
    omega
  obtain ⟨lastI, hlast⟩ := List.length_eq_one.mp hdlen
  have htake_len : (L.take m).length = m := by
    rw [List.length_take, hlen]
    exact min_eq_left (by omega)
  have hL : L = L.take m ++ [lastI] := by
    conv_lhs => rw [← hsplit]
    rw [hlast]
  have hlast_mem : lastI ∈ L := by
    rw [hL]
    exact List.mem_append.mpr (Or.inr (List.mem_singleton.mpr rfl))
  have htake_mem : ∀ i ∈ L.take m, i ∈ L := fun i hi => List.mem_of_mem_take hi
  -- run the first m inserts from the empty cache
  have hfresh := applyInserts_fresh (L.take m) (emptyCache m ttl)
    (by simp only [emptyCache, List.length_nil, htake_len]
        omega)
    (by intro i _
        simp [emptyCache])
    (by intro i _
        simp [emptyCache])
    (by rw [List.map_take]
        exact List.Nodup.sublist (List.take_sublist _ _) hnd)
    (by intro i _ p hp
        simp [emptyCache] at hp)
    (fun i hi j hj => hpair i (htake_mem i hi) j (htake_mem j hj))
  obtain ⟨hc, ha, hms, httl⟩ := hfresh
  simp only [show (emptyCache m ttl).cache = [] from rfl,
    show (emptyCache m ttl).access = [] from rfl,
    show (emptyCache m ttl).maxSize = m from rfl,
    show (emptyCache m ttl).ttl = ttl from rfl,
    List.nil_append] at hc ha hms httl
  -- the take-m prefix is nonempty: destructure it
  rcases hA : L.take m with _ | ⟨i0, A1⟩
  · rw [hA] at htake_len
    simp at htake_len
    omega
  have hA1len : A1.length = m - 1 := by
    rw [hA] at htake_len
    simp only [List.length_cons] at htake_len
    omega
  -- the key lists, with no duplicates
  have hkeys : L.map Ins.key = i0.key :: (A1.map Ins.key ++ [lastI.key]) := by
    rw [hL, hA]
    simp
  have hndL : (i0.key :: (A1.map Ins.key ++ [lastI.key])).Nodup := by
    rw [← hkeys]
    exact hnd
  have hi0_not : i0.key ∉ A1.map Ins.key ++ [lastI.key] := (List.nodup_cons.mp hndL).1
  have hi0_notA1 : i0.key ∉ A1.map Ins.key := fun hh =>
    hi0_not (List.mem_append.mpr (Or.inl hh))
  have hlast_notA1 : lastI.key ∉ A1.map Ins.key := by
    have h2 := (List.nodup_cons.mp hndL).2
    have h3 := (List.nodup_append.mp h2).2.2
    exact fun hh => (List.disjoint_singleton.mp (fun a ha hb => h3 ha hb)) hh
  -- times: the first insert is the oldest
  have htimes : ∀ i ∈ A1, i0.t ≤ i.t := by
    have hpw : (L.map Ins.t).Pairwise (· ≤ ·) := List.chain'_iff_pairwise.mp hchain
    have hmapt : L.map Ins.t = i0.t :: ((A1 ++ [lastI]).map Ins.t) := by
      rw [hL, hA]
      simp
    rw [hmapt] at hpw
    intro i hi
    exact (List.pairwise_cons.mp hpw).1 i.t
      (List.mem_map.mpr ⟨i, List.mem_append.mpr (Or.inl hi), rfl⟩)
  -- the state after the first m inserts
  have hstc : (applyInserts (emptyCache m ttl) (L.take m)).cache
      = (i0.key, i0.val) :: A1.map (fun i => (i.key, i.val)) := by
    rw [hc, hA]
    simp
  have hsta : (applyInserts (emptyCache m ttl) (L.take m)).access
      = (i0.key, i0.t) :: A1.map (fun i => (i.key, i.t)) := by
    rw [ha, hA]
    simp
  have hstttl : (applyInserts (emptyCache m ttl) (L.take m)).ttl = ttl := httl
  have hstms : (applyInserts (emptyCache m ttl) (L.take m)).maxSize = m := hms
  have hstlen : (applyInserts (emptyCache m ttl) (L.take m)).cache.length = m := by
    rw [hc, List.length_map, htake_len]
  -- the oldest entry is the first inserted
  have hmin : minKey (applyInserts (emptyCache m ttl) (L.take m)).access
      = some (i0.key, i0.t) := by
    rw [hsta]
    apply minKey_head
    intro x hx
    rcases List.mem_map.mp hx with ⟨i, hi, rfl⟩
    exact not_lt.mpr (htimes i hi)
  -- the deletions remove exactly the head entry
  have hdelc : delA (applyInserts (emptyCache m ttl) (L.take m)).cache i0.key
      = A1.map (fun i => (i.key, i.val)) := by
    rw [hstc]
    apply delA_cons_head
    rw [List.map_map]
    simpa using hi0_notA1
  have hdela : delA (applyInserts (emptyCache m ttl) (L.take m)).access i0.key
      = A1.map (fun i => (i.key, i.t)) := by
    rw [hsta]
    apply delA_cons_head
    rw [List.map_map]
    simpa using hi0_notA1
  -- the final, evicting insert
  have hfin : applyInserts (emptyCache m ttl) L
      = cacheSet (applyInserts (emptyCache m ttl) (L.take m))
          lastI.t lastI.key lastI.val := by
    conv_lhs => rw [hL]
    rw [applyInserts_append]
    rfl
  have hset := cacheSet_evicting (applyInserts (emptyCache m ttl) (L.take m))
    lastI.t lastI.key lastI.val
    (by intro p hp
        rw [hsta] at hp
        rw [hstttl]
        rcases List.mem_cons.mp hp with rfl | hp2
        · exact hpair lastI hlast_mem i0 (by rw [hL, hA]; exact List.mem_cons_self _ _)
        · rcases List.mem_map.mp hp2 with ⟨i, hi, rfl⟩
          exact hpair lastI hlast_mem i
            (by rw [hL, hA]
                exact List.mem_append.mpr
                  (Or.inl (List.mem_cons_of_mem _ hi))))
    (by rw [hstms, hstlen])
    (i0.key, i0.t) hmin
    (by rw [hdelc, List.map_map]
        simpa using hlast_notA1)
    (by rw [hdela, List.map_map]
        simpa using hlast_notA1)
  rw [hfin, hset]
  simp only [hdelc, hdela]
  refine ⟨?_, ?_, ?_⟩
  · simp only [List.length_append, List.length_map, List.length_cons,
      List.length_nil, hA1len]
    omega
  · rw [hkeys]
    simp [List.map_map]
  · intro k0 hk0
    rw [hkeys] at hk0
    simp only [List.head?_cons, Option.some.injEq] at hk0
    subst hk0
    simp only [List.map_append, List.map_map, List.mem_append]
    rintro (hmem | hmem)
    · exact hi0_notA1 (by simpa using hmem)
    · simp only [List.map_cons, List.map_nil, List.mem_singleton] at hmem
      have : i0.key = lastI.key := by simpa using hmem
      exact hi0_not (List.mem_append.mpr (Or.inr (by simp [this])))

/-- C5, witness: capacity 1, two inserts, the first key is evicted. -/
theorem C5_witness :
    (1 ≤ 1 ∧ ([⟨"a", "1", 0⟩, ⟨"b", "2", 1⟩] : List Ins).length = 1 + 1) ∧
    (applyInserts (emptyCache 1 5) [⟨"a", "1", 0⟩, ⟨"b", "2", 1⟩]).cache.length = 1 ∧
    (applyInserts (emptyCache 1 5)
      [⟨"a", "1", 0⟩, ⟨"b", "2", 1⟩]).cache.map Prod.fst = ["b"] := by
  have h := C5_eviction 1 5 [⟨"a", "1", 0⟩, ⟨"b", "2", 1⟩]
    (by decide) (by decide) (by decide)
    (by simp [List.chain'_cons]) (by decide)
  exact ⟨⟨by decide, by decide⟩, h.1, h.2.1⟩

end CodeSage